import Mathlib

set_option autoImplicit false
set_option linter.dupNamespace false

/-!
# Field derivation and configuration of the model generator

A shallow embedding of `internal/generate/generate.go` (the column to field
pipeline `getFields`, the option chains, `schemaName`, `checkStructName`) and of
`config.go` (`Config.Revise`, the generation-mode bit set), followed by the
properties proved of them.

Conventions of the embedding.

* A Go pointer that the source compares with `nil` is an `Option`; dereferencing
  a `nil` pointer is the fault `Fault.nilDereference` of the `Except` monad.
* A field option `func(*Field) *Field` is given by two functions of the field its
  argument points to: the field the returned pointer points to once the call is
  over (`Operator`, `none` for `nil`), and the field the call leaves behind its
  argument (`Write`, the identity for an option that does not write through the
  pointer). Distinct pointers are not taken to alias.
* Strings are sequences of characters.
* Library functions and functions of packages that are not part of the two
  source files are parameters (`Externals`, `gorm.NamingStrategy.schemaNameOf`,
  `gen.Env`).
-/

/-! ## Go library functions on strings -/

namespace strings

/-- Deletion of the occurrences of `old` found scanning left to right; `skip` counts the
characters of the current occurrence that are still to be dropped. -/
def removeAll (old new : List Char) : Nat → List Char → List Char
  | _, [] => []
  | skip + 1, _ :: cs => removeAll old new skip cs
  | 0, c :: cs =>
    if old.isPrefixOf (c :: cs) then new ++ removeAll old new (old.length - 1) cs
    else c :: removeAll old new 0 cs

/-- Go's `strings.ReplaceAll(s, old, new)`: every non-overlapping occurrence of `old`,
found scanning left to right, is replaced by `new`; an empty `old` matches before every
character and at the end. -/
def ReplaceAll (s old new : String) : String :=
  if old = new then s
  else if old.data = [] then String.mk (new.data ++ s.data.flatMap (fun c => c :: new.data))
  else String.mk (removeAll old.data new.data 0 s.data)

/-- The pieces of a text put back together with `sep` between them, as Go's
`strings.Join` does. -/
def joinWith (sep : List Char) : List (List Char) → List Char
  | [] => []
  | [c] => c
  | c :: d :: rest => c ++ sep ++ joinWith sep (d :: rest)

/-- Go's `unicode.IsSpace`. -/
def isSpace (c : Char) : Bool :=
  let n := c.toNat
  (9 ≤ n && n ≤ 13) || n == 32 || n == 0x85 || n == 0xA0 || n == 0x1680 ||
  (0x2000 ≤ n && n ≤ 0x200A) || n == 0x2028 || n == 0x2029 || n == 0x202F ||
  n == 0x205F || n == 0x3000

/-- Go's `strings.TrimSpace`: leading and trailing white space removed. -/
def TrimSpace (s : String) : String :=
  String.mk ((s.data.dropWhile isSpace).reverse.dropWhile isSpace).reverse

/-- A text that neither begins nor ends with white space. -/
def Trimmed (l : List Char) : Prop :=
  (∀ x ∈ l.head?, isSpace x = false) ∧ (∀ x ∈ l.getLast?, isSpace x = false)

/-- Go's `strings.Contains(s, string(c))` for a one-character substring. -/
def ContainsChar (s : String) (c : Char) : Bool :=
  s.data.contains c

end strings

/-! ## The ORM library types the generator touches -/

namespace gorm

/-- The library's `schema.NamingStrategy`: the two fields the generator reads or writes,
and its `SchemaName` method given as a function of those two fields and the argument. -/
structure NamingStrategy where
  TablePrefix : String
  SingularTable : Bool
  schemaNameOf : String → Bool → String → String

/-- The method `ns.SchemaName(table)`. -/
def NamingStrategy.SchemaName (ns : NamingStrategy) (table : String) : String :=
  ns.schemaNameOf ns.TablePrefix ns.SingularTable table

/-- The interface `schema.Namer` held in `db.NamingStrategy`: either the concrete
`schema.NamingStrategy` (the type assertion of the source succeeds) or another
implementation, of which only `SchemaName` is called. -/
inductive Namer where
  | strategy (ns : NamingStrategy)
  | custom (SchemaName : String → String)

/-- The handle `*gorm.DB`: only its naming strategy is read (`nil` is `none`). -/
structure DB where
  NamingStrategy : Option Namer

/-- The raw metadata of a column as the schema reader hands it over: `Name` is
`Name()`, and `ColumnType` is the pair `(type, ok)` that `ColumnType()` returns. -/
structure ColumnType where
  Name : String
  ColumnType : String × Bool
  Nullable : Bool
  HasDefault : Bool
  Signed : Bool

/-- The library's `schema.Relationships`, by the names of the related fields. -/
structure Relationships where
  HasOne : List String
  BelongsTo : List String
  HasMany : List String
  Many2Many : List String

/-- The library's parsed `schema.Schema`: only its relationships are read. -/
structure Schema where
  Relationships : Relationships

end gorm

/-! ## Package `internal/model` -/

namespace model

/-- Modelled from the spec: the tags of a field, an ordered multimap of key to value
(the type `GormTag` itself is declared outside the two source files). -/
abbrev GormTag := List (String × String)

/-- Modelled from the spec: the values recorded under `key`, in order. -/
def GormTag.Get (tag : GormTag) (key : String) : List String :=
  (tag.filter (fun kv => kv.1 == key)).map (fun kv => kv.2)

/-- Modelled from the spec: `Remove` strips the annotation `key`. -/
def GormTag.Remove (tag : GormTag) (key : String) : GormTag :=
  tag.filter (fun kv => !(kv.1 == key))

/-- Modelled from the spec: `Set` makes `value` the one value under `key`. -/
def GormTag.Set (tag : GormTag) (key value : String) : GormTag :=
  tag.filter (fun kv => !(kv.1 == key)) ++ [(key, value)]

/-- The relation descriptor of a field: the model it points to (`nil` is `none`) and the
child relations it owns. -/
inductive Relation where
  | mk (fieldModel : Option String) (childRelations : List Relation)

/-- The method `Relation.Model()`. -/
def Relation.Model : Relation → Option String
  | .mk m _ => m

/-- The child relations of a descriptor. -/
def Relation.ChildRelations : Relation → List Relation
  | .mk _ cs => cs

/-- The method `Relation.AppendChildRelation(relations...)`. -/
def Relation.AppendChildRelation : Relation → List Relation → Relation
  | .mk m cs, rs => .mk m (cs ++ rs)

/-- The generation model of one struct field (`Type_` is the source's `Type`). -/
structure Field where
  Name : String
  Type_ : String
  ColumnName : String
  GORMTag : GormTag
  Relation : Option Relation

/-- The interface `FieldOption`: `Operator()` yields a `func(*Field) *Field`. `Operator m`
is the pointer the function returns on `m`, given by the field it points to after the call;
`Write f` is the field the call leaves in `*m` when `*m` held `f`. An option that does
`m.Type = t; return m` has `Write f` equal to `f` with type `t` and `Operator (some f)` equal
to `some (Write f)`; an option that only reads `*m` has `Write f = f`. -/
structure FieldOption where
  Operator : Option Field → Option Field
  Write : Field → Field := fun f => f

/-- One introspected column: the embedded raw metadata and the two lookup functions
bound to it before conversion. -/
structure Column where
  ColumnType : gorm.ColumnType
  dataTypeMap : List (String × (gorm.ColumnType → String))
  jsonTagNS : Option (String → String)

/-- The method `col.Name()`. -/
def Column.Name (col : Column) : String := col.ColumnType.Name

/-- Modelled from the spec: `SetDataTypeMap` binds the type mapper to the column (a
lookup function, not a change of the raw metadata). -/
def Column.SetDataTypeMap (col : Column) (m : List (String × (gorm.ColumnType → String))) :
    Column :=
  { col with dataTypeMap := m }

/-- Modelled from the spec: `WithNS` binds the JSON tag naming function to the column. -/
def Column.WithNS (col : Column) (ns : Option (String → String)) : Column :=
  { col with jsonTagNS := ns }

/-- The configuration `model.Config` read by the field deriver. -/
structure Config where
  ModelPkg : String
  DataTypeMap : List (String × (gorm.ColumnType → String))
  FieldNullable : Bool
  FieldCoverable : Bool
  FieldSignable : Bool
  FieldWithIndexTag : Bool
  FieldWithTypeTag : Bool
  FieldJSONTagNS : Option (String → String)
  SoftDeleteFlagColumn : String
  SoftDeleteTimeColumn : String
  ModifyOpts : List FieldOption
  FilterOpts : List FieldOption
  CreateOpts : List FieldOption

end model

/-! ## Package `internal/generate` -/

namespace generate

open model

/-- A run-time fault that aborts the run. -/
inductive Fault where
  | nilDereference
  deriving DecidableEq, Repr

/-- The functions `getFields` calls that live outside the two source files:
`Column.ToField`, the library's `stmt.Parse` (its result is `stmt.Schema`, `nil` being
`none`) and `ParseStructRelationShip`. -/
structure Externals where
  ToField : Column → Bool → Bool → Bool → String → Field
  Parse : Option gorm.DB → String → Option gorm.Schema
  ParseStructRelationShip : gorm.Relationships → List Relation

/-- The source's `filterField`: every option is called on the same pointer `m`, so each
sees what the options before it wrote through `m`; the result is `nil` as soon as a call
returns `nil`, else the pointer `m`, holding the field as the calls left it. -/
def filterField (m : Option Field) : List FieldOption → Option Field
  | [] => m
  | opt :: opts =>
    if (opt.Operator m).isNone then none else filterField (m.map opt.Write) opts

/-- The field behind a pointer after the options of a list have been called on it in
order. -/
def writes (opts : List FieldOption) (m : Field) : Field :=
  opts.foldl (fun f opt => opt.Write f) m

/-- The source's `modifyField`: each option is applied to the result of the one before. -/
def modifyField (m : Option Field) : List FieldOption → Option Field
  | [] => m
  | opt :: opts => modifyField (opt.Operator m) opts

/-- The source's `schemaName`: the struct field name of a column. -/
def schemaName (db : Option gorm.DB) (columnName : String) : String :=
  match db with
  | none => columnName
  | some d =>
    match d.NamingStrategy with
    | none => columnName
    | some (.strategy ns) =>
      let ns := { ns with SingularTable := true }
      ns.SchemaName columnName
    | some (.custom SchemaName) => SchemaName columnName

/-- Lines 29 to 31 of `getFields`: the `type` tag is removed when the native type is
available and `FieldWithTypeTag` is false. -/
def typeTagStep (conf : Config) (col : Column) (m : Field) : Field :=
  if col.ColumnType.ColumnType.2 && !conf.FieldWithTypeTag then
    { m with GORMTag := m.GORMTag.Remove "type" }
  else m

/-- Lines 33 to 41 of `getFields`: the soft-delete flag column. -/
def softDeleteStep (db : Option gorm.DB) (conf : Config) (col : Column) (m : Field) : Field :=
  if conf.SoftDeleteFlagColumn != "" && col.Name == conf.SoftDeleteFlagColumn then
    let m := { m with Type_ := "soft_delete.DeletedAt" }
    let m := { m with GORMTag := m.GORMTag.Set "softDelete" "flag" }
    if conf.SoftDeleteTimeColumn != "" then
      let timeFieldStructName := schemaName db conf.SoftDeleteTimeColumn
      { m with GORMTag := m.GORMTag.Set "DeletedAtField" timeFieldStructName }
    else m
  else m

/-- Lines 44 to 49 of `getFields`: the final name of the field. -/
def namingStep (db : Option gorm.DB) (m : Option Field) : Except Fault (Option Field) :=
  match db with
  | none => .error .nilDereference
  | some d =>
    match d.NamingStrategy with
    | some (.strategy ns) =>
      let ns := { ns with SingularTable := true }
      match m with
      | none => .error .nilDereference
      | some f => .ok (some { f with Name := ns.SchemaName (ns.TablePrefix ++ f.Name) })
    | some (.custom SchemaName) =>
      match m with
      | none => .error .nilDereference
      | some f => .ok (some { f with Name := SchemaName f.Name })
    | none => .ok m

/-- Lines 21 to 24 of `getFields`: the column with its lookup functions bound. -/
def bindColumn (conf : Config) (col : Column) : Column :=
  (col.SetDataTypeMap conf.DataTypeMap).WithNS conf.FieldJSONTagNS

/-- Line 24 of `getFields`: the converted field of a column. -/
def convertColumn (ext : Externals) (conf : Config) (col : Column) : Field :=
  ext.ToField (bindColumn conf col) conf.FieldNullable conf.FieldCoverable
    conf.FieldSignable conf.SoftDeleteTimeColumn

/-- Line 26 of `getFields`: the field `*m` of a column once the filter chain has run on `m`
and returned it (the converted field itself for a column the chain rejects, which
`getFields` skips). -/
def filteredField (ext : Externals) (conf : Config) (col : Column) : Field :=
  (filterField (some (convertColumn ext conf col)) conf.FilterOpts).getD
    (convertColumn ext conf col)

/-- Lines 29 to 41 of `getFields`: the field of a column as it is handed to the modify
chain. -/
def beforeModify (ext : Externals) (db : Option gorm.DB) (conf : Config) (col : Column) :
    Field :=
  let col' := bindColumn conf col
  softDeleteStep db conf col' (typeTagStep conf col' (filteredField ext conf col))

/-- Lines 29 to 49 of `getFields`: the field appended for a column that passed the filter
chain, after the modify chain and the naming step. -/
def columnField (ext : Externals) (db : Option gorm.DB) (conf : Config) (col : Column) :
    Except Fault (Option Field) :=
  let m := beforeModify ext db conf col
  let m := modifyField (some m) conf.ModifyOpts
  namingStep db m

/-- Line 26 of `getFields`: whether the converted field of a column passes the filter
chain. -/
def passes (ext : Externals) (conf : Config) (col : Column) : Bool :=
  !(filterField (some (convertColumn ext conf col)) conf.FilterOpts).isNone

/-- The first loop of `getFields` (lines 20 to 52), `fields` being the slice built so
far. -/
def columnFields (ext : Externals) (db : Option gorm.DB) (conf : Config) :
    List Column → List (Option Field) → Except Fault (List (Option Field))
  | [], fields => .ok fields
  | col :: columns, fields =>
    let m := convertColumn ext conf col
    if (filterField (some m) conf.FilterOpts).isNone then
      columnFields ext db conf columns fields
    else
      match columnField ext db conf col with
      | .error e => .error e
      | .ok m => columnFields ext db conf columns (fields ++ [m])

/-- Lines 54 to 64 of `getFields`: the field one relation factory creates. -/
def relationField (ext : Externals) (db : Option gorm.DB) (conf : Config)
    (create : FieldOption) : Except Fault (Option Field) :=
  match create.Operator none with
  | none => .error .nilDereference
  | some m =>
    match m.Relation with
    | none => .ok (some m)
    | some rel =>
      let rel :=
        match rel.Model with
        | none => rel
        | some mdl =>
          match ext.Parse db mdl with
          | none => rel
          | some schema =>
            rel.AppendChildRelation (ext.ParseStructRelationShip schema.Relationships)
      .ok (some { m with
        Relation := some rel
        Type_ := strings.ReplaceAll m.Type_ (conf.ModelPkg ++ ".") "" })

/-- The second loop of `getFields` (lines 53 to 67). -/
def relationFields (ext : Externals) (db : Option gorm.DB) (conf : Config) :
    List FieldOption → List (Option Field) → Except Fault (List (Option Field))
  | [], fields => .ok fields
  | create :: creates, fields =>
    match relationField ext db conf create with
    | .error e => .error e
    | .ok m => relationFields ext db conf creates (fields ++ [m])

/-- The source's `getFields`. -/
def getFields (ext : Externals) (db : Option gorm.DB) (conf : Config)
    (columns : List Column) : Except Fault (List (Option Field)) :=
  match columnFields ext db conf columns [] with
  | .error e => .error e
  | .ok fields => relationFields ext db conf conf.CreateOpts fields

/-- The regular-expression class `\w` of the library: an ASCII letter, digit or underscore. -/
def isWordChar (c : Char) : Bool :=
  ('0' ≤ c && c ≤ '9') || ('A' ≤ c && c ≤ 'Z') || ('a' ≤ c && c ≤ 'z') || c == '_'

/-- The source's `modelNameReg.MatchString(name)` for the pattern `^\w+$`: the whole text
is one or more word characters. -/
def modelNameReg_MatchString (name : String) : Bool :=
  !name.data.isEmpty && name.data.all isWordChar

/-- The bytes of a string, as Go indexes them. -/
def bytes (s : String) : List Nat :=
  (s.data.flatMap String.utf8EncodeChar).map UInt8.toNat

/-- The source's `checkStructName`; `none` is the `nil` error, `some msg` an error. -/
def checkStructName (name : String) : Option String :=
  if name = "" then none
  else if !modelNameReg_MatchString name then
    some "model name cannot contains invalid character"
  else if (bytes name).headD 0 < 'A'.toNat || (bytes name).headD 0 > 'Z'.toNat then
    some "model name must be initial capital"
  else none

end generate

/-! ## Package `gen`: `config.go` -/

namespace gen

/-- The source's `GenerateMode`, an unsigned machine integer. -/
abbrev GenerateMode := Nat

/-- `WithDefaultQuery GenerateMode = 1 << iota`, with `iota = 0`. -/
def WithDefaultQuery : GenerateMode := 1 <<< 0

/-- `WithoutContext`, the same expression with `iota = 1`. -/
def WithoutContext : GenerateMode := 1 <<< 1

/-- `WithQueryInterface`, the same expression with `iota = 2`. -/
def WithQueryInterface : GenerateMode := 1 <<< 2

/-- `WithGeneric`, the same expression with `iota = 3`. -/
def WithGeneric : GenerateMode := 1 <<< 3

/-- An option handed to `WithOpts`: a field option or an option of another kind. -/
inductive ModelOpt where
  | field (opt : model.FieldOption)
  | other (name : String)

/-- The source's `Config`. -/
structure Config where
  db : Option gorm.DB
  OutPath : String
  OutFile : String
  ModelPkgPath : String
  WithUnitTest : Bool
  FieldNullable : Bool
  FieldCoverable : Bool
  FieldSignable : Bool
  FieldWithIndexTag : Bool
  FieldWithTypeTag : Bool
  SoftDeleteFlagColumn : String
  SoftDeleteTimeColumn : String
  Mode : GenerateMode
  queryPkgName : String
  modelPkgPath : String
  dbNameOpts : List (Option gorm.DB → String)
  importPkgPaths : List String
  tableNameNS : Option (String → String)
  modelNameNS : Option (String → String)
  fileNameNS : Option (String → String)
  dataTypeMap : List (String × (gorm.ColumnType → String))
  fieldJSONTagNS : Option (String → String)
  modelOpts : List ModelOpt

/-- The operating system and library functions `Revise` calls: `os.PathSeparator`,
`filepath.Abs` (its two results, the error being `none` for `nil`), `filepath.Join` of two
elements, `filepath.Base`, the constant `model.DefaultModelPkg`, and the handle that
`gorm.Open(tests.DummyDialector)` returns. -/
structure Env where
  PathSeparator : Char
  Abs : String → String × Option String
  Join : String → String → String
  Base : String → String
  DefaultModelPkg : String
  Open : Option gorm.DB

/-- Lines 171 to 173 of `Revise`: the default model package path. -/
def Config.defaultModelPkgPath (env : Env) (cfg : Config) : Config :=
  if strings.TrimSpace cfg.ModelPkgPath = "" then
    { cfg with ModelPkgPath := env.DefaultModelPkg }
  else cfg

/-- Lines 175 to 193 of `Revise`: the output path, the output file, the package name and
the handle; the configuration after these lines, and the error returned. -/
def Config.reviseOutput (env : Env) (cfg : Config) : Config × Option String :=
  let r := env.Abs cfg.OutPath
  let cfg := { cfg with OutPath := r.1 }
  match r.2 with
  | some err => (cfg, some ("outpath is invalid: " ++ err))
  | none =>
    let sep := String.singleton env.PathSeparator
    let cfg :=
      if cfg.OutPath = "" then { cfg with OutPath := "." ++ sep ++ "query" ++ sep }
      else cfg
    let cfg :=
      if cfg.OutFile = "" then { cfg with OutFile := env.Join cfg.OutPath "gen.go" }
      else if !strings.ContainsChar cfg.OutFile env.PathSeparator then
        { cfg with OutFile := env.Join cfg.OutPath cfg.OutFile }
      else cfg
    let cfg := { cfg with queryPkgName := env.Base cfg.OutPath }
    let cfg := if cfg.db.isNone then { cfg with db := env.Open } else cfg
    (cfg, none)

/-- The source's `Config.Revise`: the configuration after the call, and the error. -/
def Config.Revise (env : Env) (cfg : Config) : Config × Option String :=
  (cfg.defaultModelPkgPath env).reviseOutput env

/-- The source's `Config.judgeMode`. -/
def Config.judgeMode (cfg : Config) (mode : GenerateMode) : Bool :=
  cfg.Mode &&& mode != 0

/-- The source's `Config.WithOpts`; a `nil` slice is the empty list, and both branches of
the source leave the old entries followed by the arguments. -/
def Config.WithOpts (cfg : Config) (opts : List ModelOpt) : Config :=
  if cfg.modelOpts.isEmpty then { cfg with modelOpts := opts }
  else { cfg with modelOpts := cfg.modelOpts ++ opts }

/-- The source's `Config.WithDbNameOpts`. -/
def Config.WithDbNameOpts (cfg : Config) (opts : List (Option gorm.DB → String)) : Config :=
  if cfg.dbNameOpts.isEmpty then { cfg with dbNameOpts := opts }
  else { cfg with dbNameOpts := cfg.dbNameOpts ++ opts }

/-- The source's `Config.WithSoftDeleteFlag`. -/
def Config.WithSoftDeleteFlag (cfg : Config) (column : String) : Config :=
  { cfg with SoftDeleteFlagColumn := strings.TrimSpace column }

/-- The source's `Config.WithSoftDeleteAt`. -/
def Config.WithSoftDeleteAt (cfg : Config) (column : String) : Config :=
  { cfg with SoftDeleteTimeColumn := strings.TrimSpace column }

/-- Lines 137 to 141 of `WithImportPkgPath`: the entry stored for one path; `path[0]` and
`path[len(path)-1]` are bytes. -/
def importPath (path : String) : String :=
  let path := strings.TrimSpace path
  let b := generate.bytes path
  if b.length > 0 && b.headD 0 != '"'.toNat && b.getLastD 0 != '"'.toNat then
    "\"" ++ path ++ "\""
  else path

/-- The source's `Config.WithImportPkgPath`. -/
def Config.WithImportPkgPath (cfg : Config) (paths : List String) : Config :=
  { cfg with importPkgPaths := cfg.importPkgPaths ++ paths.map importPath }

/-- The source's `Config.CheckSoftDeletePlugin`. -/
def Config.CheckSoftDeletePlugin (cfg : Config) : Config :=
  if cfg.SoftDeleteFlagColumn != "" || cfg.SoftDeleteTimeColumn != "" then
    cfg.WithImportPkgPath ["gorm.io/plugin/soft_delete"]
  else cfg

/-- The four generation-mode flags. -/
def modeFlags : List GenerateMode :=
  [WithDefaultQuery, WithoutContext, WithQueryInterface, WithGeneric]

/-- The bitwise OR of a list of modes, as in `Mode: A | B | C`. -/
def modeOf (flags : List GenerateMode) : GenerateMode :=
  flags.foldl (fun a b => a ||| b) 0

end gen

/-! ## Sample values, used to instantiate the statements -/

namespace Sample

open model

/-- A namer that drops the underscores of a name and capitalises what follows each. -/
def pascalChars : Bool → List Char → List Char
  | _, [] => []
  | up, c :: cs =>
    if c = '_' then pascalChars true cs
    else (if up then c.toUpper else c) :: pascalChars false cs

/-- The namer `pascalChars` on strings. -/
def pascal (s : String) : String := String.mk (pascalChars true s.data)

/-- A handle whose naming strategy is the custom namer `pascal`. -/
def db : gorm.DB := { NamingStrategy := some (.custom pascal) }

/-- A handle with the library's strategy and the table prefix `t_`; its `SchemaName`
strips the table prefix before converting. -/
def dbStrategy : gorm.DB :=
  { NamingStrategy := some (.strategy
      { TablePrefix := "t_"
        SingularTable := false
        schemaNameOf := fun pre _ table =>
          pascal (String.mk (if pre.data.isPrefixOf table.data
            then table.data.drop pre.data.length else table.data)) }) }

/-- A conversion that names the field after the column and records the native type. -/
def toField (col : Column) (_ _ _ : Bool) (softDeleteTime : String) : Field :=
  { Name := col.Name
    Type_ := if col.Name = softDeleteTime then "gorm.DeletedAt" else "int64"
    ColumnName := col.Name
    GORMTag := [("column", col.Name), ("type", col.ColumnType.ColumnType.1)]
    Relation := none }

/-- Externals with `toField` and a schema parser that finds no schema. -/
def ext : generate.Externals :=
  { ToField := toField
    Parse := fun _ _ => none
    ParseStructRelationShip := fun _ => [] }

/-- A column of the given name with native type `bigint`. -/
def column (name : String) : Column :=
  { ColumnType :=
      { Name := name, ColumnType := ("bigint", true), Nullable := false,
        HasDefault := false, Signed := true }
    dataTypeMap := []
    jsonTagNS := none }

/-- A filter that drops the field of the column `name` and keeps every other field. -/
def ignore (name : String) : FieldOption :=
  { Operator := fun m =>
      match m with
      | none => none
      | some f => if f.ColumnName = name then none else some f }

/-- A filter that writes the type `t` through its argument and returns the argument:
`m.Type = t; return m`. -/
def writeType (t : String) : FieldOption :=
  { Operator := fun m => m.map (fun f => { f with Type_ := t })
    Write := fun f => { f with Type_ := t } }

/-- A filter that writes the column name through its argument and returns the argument:
`m.ColumnName = name; return m`. -/
def writeColumnName (name : String) : FieldOption :=
  { Operator := fun m => m.map (fun f => { f with ColumnName := name })
    Write := fun f => { f with ColumnName := name } }

/-- A filter that writes the name through its argument and returns the argument:
`m.Name = name; return m`. -/
def writeName (name : String) : FieldOption :=
  { Operator := fun m => m.map (fun f => { f with Name := name })
    Write := fun f => { f with Name := name } }

/-- A filter that keeps every field. -/
def keep : FieldOption := { Operator := fun m => m }

/-- A modifier that sets the type of every field. -/
def retype (t : String) : FieldOption :=
  { Operator := fun m => m.map (fun f => { f with Type_ := t }) }

/-- A modifier that appends a suffix to the type of every field. -/
def suffixType (t : String) : FieldOption :=
  { Operator := fun m => m.map (fun f => { f with Type_ := f.Type_ ++ t }) }

/-- A modifier that renames the field of the column `column`. -/
def rename (column newName : String) : FieldOption :=
  { Operator := fun m =>
      m.map (fun f => if f.ColumnName = column then { f with Name := newName } else f) }

/-- A configuration in mixed mode whose time column `t_deleted_at` begins with the table
prefix of `dbStrategy`. -/
def confPrefixed : Config :=
  { ModelPkg := "model"
    DataTypeMap := []
    FieldNullable := false
    FieldCoverable := false
    FieldSignable := false
    FieldWithIndexTag := false
    FieldWithTypeTag := true
    FieldJSONTagNS := none
    SoftDeleteFlagColumn := "is_delete"
    SoftDeleteTimeColumn := "t_deleted_at"
    ModifyOpts := []
    FilterOpts := []
    CreateOpts := [] }

/-- A relation factory: a field of the given name and type with a relation descriptor. -/
def relate (name type : String) : FieldOption :=
  { Operator := fun _ =>
      some { Name := name, Type_ := type, ColumnName := "", GORMTag := [],
             Relation := some (.mk none []) } }

/-- A configuration in mixed soft-delete mode with the given option lists. -/
def conf (filters modifiers creators : List FieldOption) : Config :=
  { ModelPkg := "model"
    DataTypeMap := []
    FieldNullable := false
    FieldCoverable := false
    FieldSignable := false
    FieldWithIndexTag := false
    FieldWithTypeTag := false
    FieldJSONTagNS := none
    SoftDeleteFlagColumn := "is_delete"
    SoftDeleteTimeColumn := "update_time"
    ModifyOpts := modifiers
    FilterOpts := filters
    CreateOpts := creators }

/-- A field named `id`. -/
def idField : Field := toField (column "id") false false false "update_time"

/-- The text after the last `/` of a path. -/
def baseChars : List Char → List Char → List Char
  | acc, [] => acc
  | acc, c :: cs => if c = '/' then baseChars [] cs else baseChars (acc ++ [c]) cs

/-- An environment with working directory `/work`: a path that starts with `/` is
absolute already, another one is taken under `/work` after dropping a leading `./`. -/
def env : gen.Env :=
  { PathSeparator := '/'
    Abs := fun p =>
      if "/".data.isPrefixOf p.data then (p, none)
      else if "./".data.isPrefixOf p.data then ("/work/" ++ String.mk (p.data.drop 2), none)
      else ("/work/" ++ p, none)
    Join := fun a b => a ++ "/" ++ b
    Base := fun p => String.mk (baseChars [] p.data)
    DefaultModelPkg := "model"
    Open := some db }

/-- An environment whose working directory cannot be read: only a path that starts with `/`
can be made absolute. -/
def envNoCwd : gen.Env :=
  { env with
    Abs := fun p =>
      if "/".data.isPrefixOf p.data then (p, none)
      else ("", some "getwd: no such file or directory") }

/-- A configuration with the given output path, output file and mode. -/
def config (outPath outFile : String) (mode : gen.GenerateMode) : gen.Config :=
  { db := none
    OutPath := outPath
    OutFile := outFile
    ModelPkgPath := ""
    WithUnitTest := false
    FieldNullable := false
    FieldCoverable := false
    FieldSignable := false
    FieldWithIndexTag := false
    FieldWithTypeTag := false
    SoftDeleteFlagColumn := ""
    SoftDeleteTimeColumn := ""
    Mode := mode
    queryPkgName := ""
    modelPkgPath := ""
    dbNameOpts := []
    importPkgPaths := []
    tableNameNS := none
    modelNameNS := none
    fileNameNS := none
    dataTypeMap := []
    fieldJSONTagNS := none
    modelOpts := [] }

end Sample

/-! ## Properties of `strings.ReplaceAll` with an empty replacement -/

namespace strings

/-- Dropping the rest of an occurrence and scanning on is scanning what is left. -/
theorem removeAll_skip (old : List Char) (k : Nat) (s : List Char) :
    removeAll old [] k s = removeAll old [] 0 (s.drop k) := by
  induction s generalizing k with
  | nil => cases k <;> simp [removeAll]
  | cons c cs ih =>
    cases k with
    | zero => rfl
    | succ k => simpa [removeAll] using ih k

/-- The scan at a position where `old` starts. -/
theorem removeAll_at_occurrence (old t : List Char) (h : old ≠ []) :
    removeAll old [] 0 (old ++ t) = removeAll old [] 0 t := by
  cases old with
  | nil => exact absurd rfl h
  | cons c cs =>
    have hp : (c :: cs).isPrefixOf (c :: (cs ++ t)) = true := by
      rw [List.isPrefixOf_iff_prefix]
      exact ⟨t, rfl⟩
    simp only [List.cons_append, removeAll, hp, if_true, List.nil_append, List.length_cons,
      Nat.add_sub_cancel]
    rw [removeAll_skip]
    simp

/-- The scan at a position where `old` does not start. -/
theorem removeAll_at_other (old : List Char) (c : Char) (cs : List Char)
    (h : ¬ old <+: c :: cs) :
    removeAll old [] 0 (c :: cs) = c :: removeAll old [] 0 cs := by
  have hp : old.isPrefixOf (c :: cs) = false := by
    rw [← Bool.not_eq_true, List.isPrefixOf_iff_prefix]
    exact h
  simp [removeAll, hp]

/-- The scan splits the text at the occurrences it deletes: the text is the pieces joined
by `old`, the result is the pieces joined by nothing, and no piece contains `old`. -/
theorem removeAll_pieces (old : List Char) (h : old ≠ []) (s : List Char) :
    ∃ pieces : List (List Char), pieces ≠ [] ∧ s = joinWith old pieces ∧
      removeAll old [] 0 s = pieces.flatten ∧ ∀ c ∈ pieces, ¬ old <:+: c := by
  generalize hn : s.length = n
  induction n using Nat.strong_induction_on generalizing s with
  | _ n ih =>
    cases s with
    | nil =>
      refine ⟨[[]], by simp, rfl, rfl, ?_⟩
      intro c hc
      simp only [List.mem_singleton] at hc
      subst hc
      simpa using h
    | cons c cs =>
      by_cases hp : old <+: c :: cs
      · obtain ⟨t, ht⟩ := hp
        have hlen : t.length < n := by
          have := congrArg List.length ht
          have hpos : 0 < old.length := List.length_pos.2 h
          simp only [List.length_append, List.length_cons] at this hn
          omega
        obtain ⟨pieces, h1, h2, h3, h4⟩ := ih t.length hlen t rfl
        refine ⟨[] :: pieces, by simp, ?_, ?_, ?_⟩
        · cases pieces with
          | nil => exact absurd rfl h1
          | cons d rest => rw [← ht, h2]; simp [joinWith]
        · rw [← ht, removeAll_at_occurrence old t h, h3]; simp
        · intro x hx
          rcases List.mem_cons.1 hx with rfl | hx
          · simpa using h
          · exact h4 x hx
      · have hlen : cs.length < n := by
          simp only [List.length_cons] at hn
          omega
        obtain ⟨pieces, h1, h2, h3, h4⟩ := ih cs.length hlen cs rfl
        cases pieces with
        | nil => exact absurd rfl h1
        | cons d rest =>
          refine ⟨(c :: d) :: rest, by simp, ?_, ?_, ?_⟩
          · rw [h2]
            cases rest <;> simp [joinWith]
          · rw [removeAll_at_other old c cs hp, h3]; simp
          · intro x hx
            rcases List.mem_cons.1 hx with rfl | hx
            · intro hin
              rcases List.infix_cons_iff.1 hin with h5 | h5
              · apply hp
                rw [h2]
                cases rest with
                | nil => simpa [joinWith] using h5
                | cons e rest =>
                  simp only [joinWith, List.append_assoc]
                  exact h5.trans ⟨old ++ joinWith old (e :: rest), by simp⟩
              · exact h4 d (by simp) h5
            · exact h4 x (by simp [hx])

/-- An occurrence in a concatenation lies in the left part, in the right part, or across
the junction. -/
theorem infix_append_cases (x a b : List Char) (h : x <:+: a ++ b) :
    x <:+: a ∨ x <:+: b ∨
      ∃ u v, u ≠ [] ∧ v ≠ [] ∧ x = u ++ v ∧ u <:+ a ∧ v <+: b := by
  induction a with
  | nil => exact Or.inr (Or.inl (by simpa using h))
  | cons y a ih =>
    rw [List.cons_append] at h
    rcases List.infix_cons_iff.1 h with h1 | h1
    · have h2 : y :: a <+: y :: (a ++ b) := ⟨b, rfl⟩
      rcases List.prefix_or_prefix_of_prefix h1 h2 with h3 | h3
      · exact Or.inl h3.isInfix
      · obtain ⟨v, rfl⟩ := h3
        by_cases hv : v = []
        · subst hv
          exact Or.inl (by simp)
        · refine Or.inr (Or.inr ⟨y :: a, v, by simp, hv, rfl, List.suffix_refl _, ?_⟩)
          have h4 : (y :: a) ++ v <+: (y :: a) ++ b := h1
          exact (List.prefix_append_right_inj _).1 h4
    · rcases ih h1 with h2 | h2 | ⟨u, v, hu, hv, rfl, h3, h4⟩
      · exact Or.inl (h2.trans (List.suffix_cons y a).isInfix)
      · exact Or.inr (Or.inl h2)
      · exact Or.inr (Or.inr ⟨u, v, hu, hv, rfl, h3.trans (List.suffix_cons y a), h4⟩)

/-- Pieces without `pkg ++ [dot]` whose last characters, the last piece apart, are not in
`pkg`, joined by nothing, are free of `pkg ++ [dot]`. -/
theorem flatten_free (pkg : List Char) (dot : Char) (pieces : List (List Char))
    (h1 : ∀ c ∈ pieces, ¬ (pkg ++ [dot]) <:+: c)
    (h2 : ∀ c ∈ pieces.dropLast, ∀ x ∈ c.getLast?, x ∉ pkg) :
    ¬ (pkg ++ [dot]) <:+: pieces.flatten := by
  induction pieces with
  | nil => simp
  | cons c rest ih =>
    intro hin
    rw [List.flatten_cons] at hin
    have hrest : ¬ (pkg ++ [dot]) <:+: rest.flatten := by
      apply ih (fun x hx => h1 x (by simp [hx]))
      intro x hx
      apply h2
      cases rest with
      | nil => simp at hx
      | cons d rest => simp [List.dropLast] at hx ⊢; exact Or.inr hx
    rcases infix_append_cases _ _ _ hin with h3 | h3 | ⟨u, v, hu, hv, huv, hsuf, hpre⟩
    · exact h1 c (by simp) h3
    · exact hrest h3
    · have hrne : rest ≠ [] := by
        rintro rfl
        simp only [List.flatten_nil, List.prefix_nil] at hpre
        exact hv hpre
      have hc : c ∈ (c :: rest).dropLast := by
        cases rest with
        | nil => exact absurd rfl hrne
        | cons d rest => simp [List.dropLast]
      have hupkg : u <+: pkg := by
        have hlen : u.length ≤ pkg.length := by
          have := congrArg List.length huv
          have hvpos : 0 < v.length := List.length_pos.2 hv
          simp only [List.length_append, List.length_singleton] at this
          omega
        have hu1 : u <+: pkg ++ [dot] := ⟨v, huv.symm⟩
        exact List.prefix_of_prefix_length_le hu1 (List.prefix_append pkg [dot]) hlen
      obtain ⟨w, hw⟩ := hsuf
      have hlast : c.getLast? = u.getLast? := by
        rw [← hw, List.getLast?_append_of_ne_nil _ hu]
      cases hul : u.getLast? with
      | none => exact hu (List.getLast?_eq_none_iff.1 hul)
      | some x =>
        have hx : x ∈ u := List.mem_of_getLast?_eq_some hul
        exact h2 c hc x (by rw [hlast, hul]; rfl) (hupkg.subset hx)

/-- The last characters of the pieces before an occurrence are the characters that precede
an occurrence in the joined text. -/
theorem joinWith_last (pkg : List Char) (dot : Char) (pieces : List (List Char))
    (s : List Char) (hs : s = joinWith (pkg ++ [dot]) pieces)
    (hC : ∀ a b x, s = a ++ x :: (pkg ++ [dot] ++ b) → x ∉ pkg) :
    ∀ c ∈ pieces.dropLast, ∀ x ∈ c.getLast?, x ∉ pkg := by
  induction pieces generalizing s with
  | nil => simp
  | cons c rest ih =>
    cases rest with
    | nil => simp
    | cons d rest =>
      intro y hy x hx
      simp only [List.dropLast, List.mem_cons] at hy
      rcases hy with rfl | hy
      · obtain ⟨w, rfl⟩ : ∃ w, y = w ++ [x] := by
          have := List.getLast?_eq_some_iff.1 hx
          exact this
        apply hC w (joinWith (pkg ++ [dot]) (d :: rest)) x
        rw [hs]
        simp [joinWith]
      · apply ih (joinWith (pkg ++ [dot]) (d :: rest)) rfl ?_ y (by simpa [List.dropLast] using hy) x hx
        intro a b z hz
        apply hC (c ++ (pkg ++ [dot]) ++ a) b z
        rw [hs]
        simp only [joinWith, hz, List.append_assoc]

/-- One pass leaves no occurrence of `pkg ++ [dot]` when no occurrence in the text is
directly preceded by a character of `pkg`. -/
theorem removeAll_free (pkg : List Char) (dot : Char) (s : List Char)
    (hC : ∀ a b x, s = a ++ x :: (pkg ++ [dot] ++ b) → x ∉ pkg) :
    ¬ (pkg ++ [dot]) <:+: removeAll (pkg ++ [dot]) [] 0 s := by
  obtain ⟨pieces, _, h2, h3, h4⟩ := removeAll_pieces (pkg ++ [dot]) (by simp) s
  rw [h3]
  exact flatten_free pkg dot pieces h4 (joinWith_last pkg dot pieces s h2 hC)

/-- The source's call `strings.ReplaceAll(t, pkg + ".", "")` is the scan that deletes. -/
theorem ReplaceAll_dot (t pkg : String) :
    (ReplaceAll t (pkg ++ ".") "").data = removeAll (pkg.data ++ ['.']) [] 0 t.data := by
  have h1 : (pkg ++ ".").data = pkg.data ++ ['.'] := by
    simp [String.data_append]
  have h2 : pkg ++ "." ≠ "" := by
    intro h
    have := congrArg String.data h
    rw [h1] at this
    simp at this
  simp only [ReplaceAll, if_neg h2, h1]
  simp

end strings

/-! ## Properties of the option chains and of `getFields` -/

namespace generate

open model

/-- The field behind a pointer after one more call. -/
theorem writes_cons (opt : FieldOption) (opts : List FieldOption) (m : Field) :
    writes (opt :: opts) m = writes opts (opt.Write m) := rfl

/-- Options that do not write through their argument leave the field as it was. -/
theorem writes_eq_self (opts : List FieldOption) (m : Field)
    (h : ∀ opt ∈ opts, ∀ f : Field, opt.Write f = f) : writes opts m = m := by
  induction opts generalizing m with
  | nil => rfl
  | cons opt opts ih =>
    rw [writes_cons, h opt (by simp) m]
    exact ih m (fun o ho => h o (by simp [ho]))

/-- The filter chain returns `nil` exactly when one of its options returns `nil` on the
field as the options before it left it. -/
theorem filterField_eq_none_iff (m : Field) (opts : List FieldOption) :
    filterField (some m) opts = none ↔
      ∃ before opt after, opts = before ++ opt :: after ∧
        opt.Operator (some (writes before m)) = none := by
  induction opts generalizing m with
  | nil => simp [filterField]
  | cons o opts ih =>
    by_cases h : o.Operator (some m) = none
    · simp only [filterField, h, Option.isNone_none, if_true, true_iff]
      exact ⟨[], o, opts, rfl, h⟩
    · have h1 : (o.Operator (some m)).isNone = false := by
        cases hc : o.Operator (some m) with
        | none => exact absurd hc h
        | some x => rfl
      simp only [filterField, h1, Bool.false_eq_true, if_false, Option.map_some', ih]
      constructor
      · rintro ⟨before, opt, after, rfl, hn⟩
        exact ⟨o :: before, opt, after, rfl, hn⟩
      · rintro ⟨before, opt, after, heq, hn⟩
        cases before with
        | nil =>
          simp only [List.nil_append, List.cons.injEq] at heq
          obtain ⟨rfl, _⟩ := heq
          exact absurd hn h
        | cons x before =>
          simp only [List.cons_append, List.cons.injEq] at heq
          obtain ⟨rfl, rfl⟩ := heq
          exact ⟨before, opt, after, rfl, hn⟩

/-- A chain that does not return `nil` returns its argument, holding the field as the
calls left it. -/
theorem filterField_eq_writes (m : Field) (opts : List FieldOption)
    (h : filterField (some m) opts ≠ none) :
    filterField (some m) opts = some (writes opts m) := by
  induction opts generalizing m with
  | nil => rfl
  | cons o opts ih =>
    by_cases h1 : (o.Operator (some m)).isNone = true
    · simp [filterField, h1] at h
    · simp only [filterField, h1, Bool.false_eq_true, if_false, Option.map_some'] at h ⊢
      exact ih (o.Write m) h

/-- For options that do not write through their argument, the filter chain returns `nil`
exactly when one of them returns `nil` on the field given. -/
theorem filterField_eq_none_iff_of_pure (m : Field) (opts : List FieldOption)
    (hw : ∀ opt ∈ opts, ∀ f : Field, opt.Write f = f) :
    filterField (some m) opts = none ↔ ∃ opt ∈ opts, opt.Operator (some m) = none := by
  rw [filterField_eq_none_iff]
  constructor
  · rintro ⟨before, opt, after, rfl, hn⟩
    rw [writes_eq_self before m (fun o ho => hw o (by simp [ho]))] at hn
    exact ⟨opt, by simp, hn⟩
  · rintro ⟨opt, hopt, hn⟩
    obtain ⟨before, after, rfl⟩ := List.append_of_mem hopt
    refine ⟨before, opt, after, rfl, ?_⟩
    rw [writes_eq_self before m (fun o ho => hw o (by simp [ho]))]
    exact hn

/-- A column whose converted field is rejected is skipped by the first loop. -/
theorem columnFields_skip (ext : Externals) (db : Option gorm.DB) (conf : Config)
    (col : Column) (columns : List Column) (fields : List (Option Field))
    (h : filterField (some (convertColumn ext conf col)) conf.FilterOpts = none) :
    columnFields ext db conf (col :: columns) fields = columnFields ext db conf columns fields := by
  simp [columnFields, h]

/-- The first loop on a column list with a rejected column in the middle. -/
theorem columnFields_remove (ext : Externals) (db : Option gorm.DB) (conf : Config)
    (pre post : List Column) (col : Column) (fields : List (Option Field))
    (h : filterField (some (convertColumn ext conf col)) conf.FilterOpts = none) :
    columnFields ext db conf (pre ++ col :: post) fields
      = columnFields ext db conf (pre ++ post) fields := by
  induction pre generalizing fields with
  | nil => simpa using columnFields_skip ext db conf col post fields h
  | cons c pre ih =>
    simp only [List.cons_append, columnFields]
    split
    · exact ih fields
    · split
      · rfl
      · exact ih _

/-- C1 as stated fails: the first filter writes the column name `update_time` through the
pointer and returns it, the second drops the field of `update_time`; on the field of `id`
neither option returns `nil`, yet the chain does. -/
theorem C1_filter_chain_counterexample :
    filterField (some Sample.idField)
        [Sample.writeColumnName "update_time", Sample.ignore "update_time"] = none ∧
    ¬ ∃ opt ∈ [Sample.writeColumnName "update_time", Sample.ignore "update_time"],
        opt.Operator (some Sample.idField) = none := by
  refine ⟨rfl, ?_⟩
  rintro ⟨opt, hopt, h⟩
  simp only [List.mem_cons, List.mem_singleton, List.not_mem_nil, or_false] at hopt
  rcases hopt with rfl | rfl
  · have h1 : ((Sample.writeColumnName "update_time").Operator (some Sample.idField)).isSome
        = true := rfl
    rw [h] at h1
    cases h1
  · have h1 : ((Sample.ignore "update_time").Operator (some Sample.idField)).isSome
        = true := rfl
    rw [h] at h1
    cases h1

/-- C1, amended. Filter chain: `filterField(m, opts)` is `nil` if and only if some option of
the list returns `nil` on the field as the options before it left it, all being called on
the same pointer; for options that do not write through the pointer this is: if and only
if at least one option of the list returns `nil` on `m`, wherever it stands. A column whose
field the filter chain rejects contributes nothing to the output of `getFields`: the output
is that of the column list without it. -/
theorem C1_filter_chain :
    (∀ (m : Field) (opts : List FieldOption),
      filterField (some m) opts = none ↔
        ∃ before opt after, opts = before ++ opt :: after ∧
          opt.Operator (some (writes before m)) = none) ∧
    (∀ (m : Field) (opts : List FieldOption),
      (∀ opt ∈ opts, ∀ f : Field, opt.Write f = f) →
      (filterField (some m) opts = none ↔ ∃ opt ∈ opts, opt.Operator (some m) = none)) ∧
    (∀ (ext : Externals) (db : Option gorm.DB) (conf : Config) (pre post : List Column)
      (col : Column),
      filterField (some (convertColumn ext conf col)) conf.FilterOpts = none →
      getFields ext db conf (pre ++ col :: post) = getFields ext db conf (pre ++ post)) := by
  refine ⟨filterField_eq_none_iff, filterField_eq_none_iff_of_pure, ?_⟩
  intro ext db conf pre post col h
  simp only [getFields, columnFields_remove ext db conf pre post col [] h]

/-- C1, amended, at sample values: the filter `ignore "update_time"` in second position
rejects the field of `update_time`, and the column adds nothing to the output. -/
theorem C1_filter_chain_witness :
    filterField (some (Sample.toField (Sample.column "update_time") false false false ""))
        [Sample.keep, Sample.ignore "update_time"] = none ∧
    getFields Sample.ext (some Sample.db)
        (Sample.conf [Sample.keep, Sample.ignore "update_time"] [] [])
        ([Sample.column "id"] ++ Sample.column "update_time" :: [Sample.column "is_delete"])
      = getFields Sample.ext (some Sample.db)
        (Sample.conf [Sample.keep, Sample.ignore "update_time"] [] [])
        ([Sample.column "id"] ++ [Sample.column "is_delete"]) :=
  ⟨(C1_filter_chain.2.1 _ [Sample.keep, Sample.ignore "update_time"] (by
      intro opt hopt f
      simp only [List.mem_cons, List.mem_singleton, List.not_mem_nil, or_false] at hopt
      rcases hopt with rfl | rfl <;> rfl)).2
      ⟨Sample.ignore "update_time", by simp, rfl⟩,
   C1_filter_chain.2.2 Sample.ext (some Sample.db) _ [Sample.column "id"]
     [Sample.column "is_delete"] (Sample.column "update_time") rfl⟩

/-- The modify chain over a concatenation of option lists. -/
theorem modifyField_append (m : Option Field) (a b : List FieldOption) :
    modifyField m (a ++ b) = modifyField (modifyField m a) b := by
  induction a generalizing m with
  | nil => rfl
  | cons opt a ih => simpa [modifyField] using ih (opt.Operator m)

/-- C2. Modify chain: `modifyField` composes the options left to right in registration
order: no option leaves `m` as it is, `[M1, M2]` gives `M2(M1(m))`, and the chain of
`a ++ b` is the chain of `b` after the chain of `a`; the order matters, as setting a type
and then appending to it differs from appending first. -/
theorem C2_modify_chain :
    (∀ (m : Option Field), modifyField m [] = m) ∧
    (∀ (m : Option Field) (M1 M2 : FieldOption),
      modifyField m [M1, M2] = M2.Operator (M1.Operator m)) ∧
    (∀ (m : Option Field) (a b : List FieldOption),
      modifyField m (a ++ b) = modifyField (modifyField m a) b) ∧
    ((modifyField (some Sample.idField) [Sample.retype "int", Sample.suffixType "32"]).map
        (fun f => f.Type_) = some "int32" ∧
     (modifyField (some Sample.idField) [Sample.suffixType "32", Sample.retype "int"]).map
        (fun f => f.Type_) = some "int") :=
  ⟨fun _ => rfl, fun _ _ _ => rfl, modifyField_append, by decide, by decide⟩

/-- What the first loop returns: the slice it started from, followed by the fields of the
columns that pass the filter chain, in column order. -/
theorem columnFields_ok_iff (ext : Externals) (db : Option gorm.DB) (conf : Config)
    (columns : List Column) (fields out : List (Option Field)) :
    columnFields ext db conf columns fields = .ok out ↔
      ∃ cs, out = fields ++ cs ∧
        List.Forall₂ (fun col m => columnField ext db conf col = .ok m)
          (columns.filter (passes ext conf)) cs := by
  induction columns generalizing fields with
  | nil =>
    simp only [columnFields, List.filter_nil, List.forall₂_nil_left_iff, Except.ok.injEq]
    constructor
    · intro h; exact ⟨[], by simp [h], rfl⟩
    · rintro ⟨cs, h, rfl⟩; simp [h]
  | cons col columns ih =>
    by_cases hp : (filterField (some (convertColumn ext conf col)) conf.FilterOpts).isNone = true
    · have hq : passes ext conf col = false := by simp [passes, hp]
      simp only [columnFields, hp, if_true, List.filter_cons, hq]
      exact ih fields
    · have hq : passes ext conf col = true := by simp [passes, hp]
      simp only [columnFields, hp, List.filter_cons, hq, if_true, List.forall₂_cons_left_iff]
      cases hc : columnField ext db conf col with
      | error e => simp
      | ok m =>
        simp only [Bool.false_eq_true, if_false, ih]
        constructor
        · rintro ⟨cs, rfl, h⟩
          exact ⟨m :: cs, by simp, m, cs, rfl, h, rfl⟩
        · rintro ⟨cs, rfl, m1, cs1, h1, h2, rfl⟩
          cases h1
          exact ⟨cs1, by simp, h2⟩

/-- What the second loop returns: the slice it started from, followed by one field for each
relation factory, in registration order. -/
theorem relationFields_ok_iff (ext : Externals) (db : Option gorm.DB) (conf : Config)
    (creates : List FieldOption) (fields out : List (Option Field)) :
    relationFields ext db conf creates fields = .ok out ↔
      ∃ rs, out = fields ++ rs ∧
        List.Forall₂ (fun create m => relationField ext db conf create = .ok m) creates rs := by
  induction creates generalizing fields with
  | nil =>
    simp only [relationFields, List.forall₂_nil_left_iff, Except.ok.injEq]
    constructor
    · intro h; exact ⟨[], by simp [h], rfl⟩
    · rintro ⟨rs, h, rfl⟩; simp [h]
  | cons create creates ih =>
    simp only [relationFields, List.forall₂_cons_left_iff]
    cases hc : relationField ext db conf create with
    | error e => simp
    | ok m =>
      simp only [ih]
      constructor
      · rintro ⟨rs, rfl, h⟩
        exact ⟨m :: rs, by simp, m, rs, rfl, h, rfl⟩
      · rintro ⟨rs, rfl, m1, rs1, h1, h2, rfl⟩
        cases h1
        exact ⟨rs1, by simp, h2⟩

/-- What `getFields` returns: the fields of the passing columns, then the relation fields. -/
theorem getFields_ok_iff (ext : Externals) (db : Option gorm.DB) (conf : Config)
    (columns : List Column) (out : List (Option Field)) :
    getFields ext db conf columns = .ok out ↔
      ∃ cs rs, out = cs ++ rs ∧
        List.Forall₂ (fun col m => columnField ext db conf col = .ok m)
          (columns.filter (passes ext conf)) cs ∧
        List.Forall₂ (fun create m => relationField ext db conf create = .ok m)
          conf.CreateOpts rs := by
  unfold getFields
  cases hc : columnFields ext db conf columns [] with
  | error e =>
    simp only [false_iff, not_exists, not_and, reduceCtorEq]
    intro cs rs _ h1 _
    have := (columnFields_ok_iff ext db conf columns [] cs).2 ⟨cs, by simp, h1⟩
    rw [hc] at this
    cases this
  | ok fields =>
    obtain ⟨cs0, h0, hcs0⟩ := (columnFields_ok_iff ext db conf columns [] fields).1 hc
    simp only [List.nil_append] at h0
    subst h0
    simp only [relationFields_ok_iff]
    constructor
    · rintro ⟨rs, rfl, h⟩
      exact ⟨fields, rs, rfl, hcs0, h⟩
    · rintro ⟨cs, rs, rfl, h1, h2⟩
      have : cs = fields := by
        have h3 := (columnFields_ok_iff ext db conf columns [] cs).2 ⟨cs, by simp, h1⟩
        rw [hc] at h3
        cases h3
        rfl
      subst this
      exact ⟨rs, rfl, h2⟩

/-- After `Set`, the key holds the one value set. -/
theorem GormTag_get_set_self (tag : GormTag) (key value : String) :
    (tag.Set key value).Get key = [value] := by
  simp [GormTag.Set, GormTag.Get, List.filter_append, List.filter_filter]

/-- `Set` leaves the values under the other keys as they were. -/
theorem GormTag_get_set_other (tag : GormTag) (key other value : String) (h : key ≠ other) :
    (tag.Set key value).Get other = tag.Get other := by
  have h1 : ∀ kv : String × String,
      ((kv.1 == other) && !(kv.1 == key)) = (kv.1 == other) := by
    intro kv
    by_cases h2 : kv.1 = other
    · subst h2; simp [Ne.symm h]
    · simp [h2]
  simp [GormTag.Set, GormTag.Get, List.filter_append, List.filter_filter, h, h1]

/-- A relation between lists, split at an element of the left list. -/
theorem forall₂_split {α β : Type} (R : α → β → Prop) (l₁ l₂ : List α) (a : α)
    (out : List β) (h : List.Forall₂ R (l₁ ++ a :: l₂) out) :
    ∃ A b B, out = A ++ b :: B ∧ A.length = l₁.length ∧ R a b := by
  induction l₁ generalizing out with
  | nil =>
    obtain ⟨b, B, hb, _, rfl⟩ := List.forall₂_cons_left_iff.1 h
    exact ⟨[], b, B, rfl, rfl, hb⟩
  | cons x l₁ ih =>
    obtain ⟨y, out1, _, h1, rfl⟩ := List.forall₂_cons_left_iff.1 h
    obtain ⟨A, b, B, rfl, hA, hb⟩ := ih out1 h1
    exact ⟨y :: A, b, B, rfl, by simp [hA], hb⟩

/-- The naming step changes nothing of a field but its name. -/
theorem namingStep_ok (db : Option gorm.DB) (m : Field) (r : Option Field)
    (h : namingStep db (some m) = .ok r) :
    ∃ name, r = some { m with Name := name } := by
  unfold namingStep at h
  split at h
  · cases h
  · split at h
    · simp only [Except.ok.injEq] at h
      exact ⟨_, h.symm⟩
    · simp only [Except.ok.injEq] at h
      exact ⟨_, h.symm⟩
    · simp only [Except.ok.injEq] at h
      exact ⟨m.Name, h.symm⟩

/-- What the soft-delete step does to the flag column in mixed mode. -/
theorem softDeleteStep_mixed (db : Option gorm.DB) (conf : Config) (col : Column) (m : Field)
    (hflag : conf.SoftDeleteFlagColumn ≠ "") (htime : conf.SoftDeleteTimeColumn ≠ "")
    (hname : col.Name = conf.SoftDeleteFlagColumn) :
    softDeleteStep db conf col m =
      { m with
        Type_ := "soft_delete.DeletedAt"
        GORMTag := (m.GORMTag.Set "softDelete" "flag").Set "DeletedAtField"
          (schemaName db conf.SoftDeleteTimeColumn) } := by
  simp [softDeleteStep, hflag, htime, hname]

/-- C3. Mixed soft-delete mode: with both soft-delete columns configured, the field of a
column named as the flag column that passes the filter chain is handed to the modify chain
with type `soft_delete.DeletedAt`, tag `softDelete=flag` and tag `DeletedAtField` equal to
`schemaName` of the time column, which is the naming strategy's `SchemaName` of it; with no
modifier registered the field of the output carries the same type and tags. Nothing is
assumed of the other columns or of the filters, so the time column may be present, absent
or dropped. -/
theorem C3_mixed_soft_delete (ext : Externals) (db : Option gorm.DB) (conf : Config)
    (col : Column)
    (hflag : conf.SoftDeleteFlagColumn ≠ "") (htime : conf.SoftDeleteTimeColumn ≠ "")
    (hname : col.Name = conf.SoftDeleteFlagColumn)
    (hpass : passes ext conf col = true) :
    (∀ (rest : List Column) (fields : List (Option Field)),
      columnFields ext db conf (col :: rest) fields =
        match namingStep db (modifyField (some (beforeModify ext db conf col)) conf.ModifyOpts) with
        | .error e => .error e
        | .ok m => columnFields ext db conf rest (fields ++ [m])) ∧
    (beforeModify ext db conf col).Type_ = "soft_delete.DeletedAt" ∧
    (beforeModify ext db conf col).GORMTag.Get "softDelete" = ["flag"] ∧
    (beforeModify ext db conf col).GORMTag.Get "DeletedAtField"
      = [schemaName db conf.SoftDeleteTimeColumn] ∧
    (∀ (d : gorm.DB) (SchemaName : String → String), db = some d →
      d.NamingStrategy = some (.custom SchemaName) →
      schemaName db conf.SoftDeleteTimeColumn = SchemaName conf.SoftDeleteTimeColumn) ∧
    (∀ (d : gorm.DB) (ns : gorm.NamingStrategy), db = some d →
      d.NamingStrategy = some (.strategy ns) →
      schemaName db conf.SoftDeleteTimeColumn
        = gorm.NamingStrategy.SchemaName { ns with SingularTable := true }
            conf.SoftDeleteTimeColumn) ∧
    (∀ (pre post : List Column) (out : List (Option Field)), conf.ModifyOpts = [] →
      getFields ext db conf (pre ++ col :: post) = .ok out →
      ∃ A f B, out = A ++ some f :: B ∧
        A.length = (pre.filter (passes ext conf)).length ∧
        f.Type_ = "soft_delete.DeletedAt" ∧
        f.GORMTag.Get "softDelete" = ["flag"] ∧
        f.GORMTag.Get "DeletedAtField" = [schemaName db conf.SoftDeleteTimeColumn]) := by
  have hname' : (bindColumn conf col).Name = conf.SoftDeleteFlagColumn := hname
  have hbm := softDeleteStep_mixed db conf (bindColumn conf col)
    (typeTagStep conf (bindColumn conf col) (filteredField ext conf col)) hflag htime hname'
  have hT : (beforeModify ext db conf col).Type_ = "soft_delete.DeletedAt" := by
    simp only [beforeModify, hbm]
  have hS : (beforeModify ext db conf col).GORMTag.Get "softDelete" = ["flag"] := by
    simp only [beforeModify, hbm]
    rw [GormTag_get_set_other _ _ _ _ (by decide), GormTag_get_set_self]
  have hD : (beforeModify ext db conf col).GORMTag.Get "DeletedAtField"
      = [schemaName db conf.SoftDeleteTimeColumn] := by
    simp only [beforeModify, hbm]
    rw [GormTag_get_set_self]
  refine ⟨?_, hT, hS, hD, ?_, ?_, ?_⟩
  · intro rest fields
    have hp : (filterField (some (convertColumn ext conf col)) conf.FilterOpts).isNone = false := by
      simpa [passes] using hpass
    simp only [columnFields, hp, columnField]
    rfl
  · rintro d SN rfl hd
    simp [schemaName, hd]
  · rintro d ns rfl hd
    simp [schemaName, hd]
  · intro pre post out hmod hout
    obtain ⟨cs, rs, rfl, hcs, _⟩ := (getFields_ok_iff ext db conf _ out).1 hout
    rw [List.filter_append, List.filter_cons, hpass, if_pos rfl] at hcs
    obtain ⟨A, b, B, rfl, hA, hb⟩ := forall₂_split _ _ _ _ _ hcs
    simp only [columnField, hmod, modifyField] at hb
    obtain ⟨name, rfl⟩ := namingStep_ok db _ _ hb
    exact ⟨A, { beforeModify ext db conf col with Name := name }, B ++ rs, by simp, hA,
      hT, hS, hD⟩

/-- C3 at sample values: flag column `is_delete`, time column `update_time`, the time
column dropped by a filter; the flag field carries `DeletedAtField=UpdateTime`. -/
theorem C3_mixed_soft_delete_witness :
    (beforeModify Sample.ext (some Sample.db)
        (Sample.conf [Sample.ignore "update_time"] [] [])
        (Sample.column "is_delete")).GORMTag.Get "DeletedAtField" = ["UpdateTime"] ∧
    ∃ A f B,
      getFields Sample.ext (some Sample.db) (Sample.conf [Sample.ignore "update_time"] [] [])
        ([Sample.column "id"] ++ Sample.column "is_delete" :: [Sample.column "update_time"])
        = .ok (A ++ some f :: B) ∧
      A.length = 1 ∧ f.Type_ = "soft_delete.DeletedAt" ∧
      f.GORMTag.Get "softDelete" = ["flag"] ∧
      f.GORMTag.Get "DeletedAtField" = ["UpdateTime"] := by
  have h := C3_mixed_soft_delete Sample.ext (some Sample.db)
    (Sample.conf [Sample.ignore "update_time"] [] []) (Sample.column "is_delete")
    (by decide) (by decide) rfl rfl
  refine ⟨h.2.2.2.1, ?_⟩
  obtain ⟨out, hout⟩ : ∃ out, getFields Sample.ext (some Sample.db)
      (Sample.conf [Sample.ignore "update_time"] [] [])
      ([Sample.column "id"] ++ Sample.column "is_delete" :: [Sample.column "update_time"])
      = .ok out := ⟨_, rfl⟩
  obtain ⟨A, f, B, h1, h2, h3, h4, h5⟩ :=
    h.2.2.2.2.2.2 [Sample.column "id"] [Sample.column "update_time"] out rfl hout
  exact ⟨A, f, B, h1 ▸ hout, h2, h3, h4, h5⟩

/-! ## Properties of `checkStructName` -/

/-- The order of characters is the order of their code points. -/
theorem char_le_iff (a b : Char) : a ≤ b ↔ a.toNat ≤ b.toNat := by
  simp [Char.le_def, UInt32.le_def, BitVec.le_def, Char.toNat, UInt32.toNat]

/-- The first byte of a string that starts with an ASCII character is that character. -/
theorem bytes_headD_ascii (c : Char) (rest : List Char) (h : c.toNat < 128) :
    (bytes (String.mk (c :: rest))).headD 0 = c.toNat := by
  have h1 : c.val ≤ 127 := by
    rw [UInt32.le_def, BitVec.le_def]
    simp only [Char.toNat, UInt32.toNat] at h
    show c.val.toBitVec.toNat ≤ 127
    omega
  simp only [bytes, List.flatMap_cons, String.utf8EncodeChar, h1, if_true, List.map,
    List.headD, List.singleton_append, List.cons_append, List.nil_append]
  simp only [UInt32.toUInt8, Nat.toUInt8, UInt8.ofNat, UInt8.toNat, BitVec.toNat_ofNat,
    Char.toNat] at h ⊢
  omega

/-- The class of word characters, spelled out. -/
theorem isWordChar_iff (c : Char) :
    isWordChar c = true ↔
      (('a' ≤ c ∧ c ≤ 'z') ∨ ('A' ≤ c ∧ c ≤ 'Z') ∨ ('0' ≤ c ∧ c ≤ '9') ∨ c = '_') := by
  simp only [isWordChar, Bool.or_eq_true, Bool.and_eq_true, decide_eq_true_eq, beq_iff_eq]
  tauto

/-- A word character is an ASCII character. -/
theorem isWordChar_ascii (c : Char) (h : isWordChar c = true) : c.toNat < 128 := by
  rw [isWordChar_iff] at h
  simp only [char_le_iff] at h
  rcases h with h | h | h | h
  · have : ('z' : Char).toNat = 122 := rfl
    omega
  · have : ('Z' : Char).toNat = 90 := rfl
    omega
  · have : ('9' : Char).toNat = 57 := rfl
    omega
  · subst h; decide

/-- C4. Name validation: a non-empty name passes `checkStructName` if and only if each of
its characters is an ASCII letter, digit or underscore and its first character is one of
`A` to `Z`; `MyField` passes, `myField` fails for its lowercase initial and `My-Field` for
an invalid character. -/
theorem C4_name_validation :
    (∀ name : String, name ≠ "" →
      (checkStructName name = none ↔
        (∀ c ∈ name.data,
          ('a' ≤ c ∧ c ≤ 'z') ∨ ('A' ≤ c ∧ c ≤ 'Z') ∨ ('0' ≤ c ∧ c ≤ '9') ∨ c = '_') ∧
        ∃ c rest, name.data = c :: rest ∧ 'A' ≤ c ∧ c ≤ 'Z')) ∧
    checkStructName "MyField" = none ∧
    checkStructName "myField" = some "model name must be initial capital" ∧
    checkStructName "My-Field" = some "model name cannot contains invalid character" := by
  refine ⟨?_, by decide, by decide, by decide⟩
  intro name hne
  obtain ⟨data⟩ := name
  cases data with
  | nil => exact absurd rfl hne
  | cons c rest =>
    by_cases hall : (c :: rest).all isWordChar = true
    · have hc : isWordChar c = true := by
        simp only [List.all_cons, Bool.and_eq_true] at hall
        exact hall.1
      have hb := bytes_headD_ascii c rest (isWordChar_ascii c hc)
      have hA : ('A' : Char).toNat = 65 := rfl
      have hZ : ('Z' : Char).toNat = 90 := rfl
      have hw : ∀ x ∈ c :: rest,
          ('a' ≤ x ∧ x ≤ 'z') ∨ ('A' ≤ x ∧ x ≤ 'Z') ∨ ('0' ≤ x ∧ x ≤ '9') ∨ x = '_' := by
        intro x hx
        exact (isWordChar_iff x).1 (List.all_eq_true.1 hall x hx)
      simp only [checkStructName, if_neg hne, modelNameReg_MatchString, hall, hb, hA, hZ]
      constructor
      · intro h
        refine ⟨hw, c, rest, rfl, ?_⟩
        simp only [char_le_iff, hA, hZ]
        by_contra hcon
        have : (decide (c.toNat < 65) || decide (c.toNat > 90)) = true := by
          simp only [Bool.or_eq_true, decide_eq_true_eq]
          omega
        simp [this] at h
      · rintro ⟨_, c1, rest1, h1, h2, h3⟩
        simp only [List.cons.injEq] at h1
        obtain ⟨rfl, _⟩ := h1
        simp only [char_le_iff, hA, hZ] at h2 h3
        have : (decide (c.toNat < 65) || decide (c.toNat > 90)) = false := by
          simp only [Bool.or_eq_false_iff, decide_eq_false_iff_not]
          omega
        simp [this]
    · have hn : ¬ ∀ x ∈ c :: rest,
          ('a' ≤ x ∧ x ≤ 'z') ∨ ('A' ≤ x ∧ x ≤ 'Z') ∨ ('0' ≤ x ∧ x ≤ '9') ∨ x = '_' := by
        intro h
        apply hall
        exact List.all_eq_true.2 (fun x hx => (isWordChar_iff x).2 (h x hx))
      simp only [checkStructName, if_neg hne, modelNameReg_MatchString, hall]
      constructor
      · intro h
        simp at h
      · rintro ⟨h, _⟩
        exact absurd h hn

/-- C4 at the name `Model_1`. -/
theorem C4_name_validation_witness : checkStructName "Model_1" = none :=
  (C4_name_validation.1 "Model_1" (by decide)).2
    ⟨by decide, 'M', "odel_1".data, rfl, by decide, by decide⟩

/-- C5 as stated fails: for the empty name `checkStructName` returns no error. -/
theorem C5_empty_name_counterexample : ¬ ∃ msg, checkStructName "" = some msg := by
  rintro ⟨msg, h⟩
  have h0 : checkStructName "" = none := by decide
  rw [h0] at h
  cases h

/-- C5, amended. The empty name is accepted: `checkStructName` returns no error for it, and
every error it returns is for a non-empty name. -/
theorem C5_empty_name_accepted :
    checkStructName "" = none ∧
    ∀ (name msg : String), checkStructName name = some msg → name ≠ "" := by
  refine ⟨by decide, ?_⟩
  rintro name msg h rfl
  have h0 : checkStructName "" = none := by decide
  rw [h0] at h
  cases h

/-- C5, amended, at the name `myField`, which is refused and is not empty. -/
theorem C5_empty_name_accepted_witness : "myField" ≠ "" :=
  C5_empty_name_accepted.2 "myField" "model name must be initial capital" (by decide)

/-! ## The order of the output of `getFields` -/

/-- A relation that is total on the members of a list relates the list to some list. -/
theorem forall₂_of_total {α β : Type} (R : α → β → Prop) (l : List α)
    (h : ∀ a ∈ l, ∃ b, R a b) : ∃ bs, List.Forall₂ R l bs := by
  induction l with
  | nil => exact ⟨[], List.Forall₂.nil⟩
  | cons a l ih =>
    obtain ⟨b, hb⟩ := h a (by simp)
    obtain ⟨bs, hbs⟩ := ih (fun x hx => h x (by simp [hx]))
    exact ⟨b :: bs, List.Forall₂.cons hb hbs⟩

/-- A modify chain whose options never return `nil` on a field does not return `nil`. -/
theorem modifyField_isSome (opts : List FieldOption)
    (h : ∀ opt ∈ opts, ∀ f : Field, opt.Operator (some f) ≠ none) (f : Field) :
    ∃ g, modifyField (some f) opts = some g := by
  induction opts generalizing f with
  | nil => exact ⟨f, rfl⟩
  | cons opt opts ih =>
    cases hf : opt.Operator (some f) with
    | none => exact absurd hf (h opt (by simp) f)
    | some f1 =>
      obtain ⟨g, hg⟩ := ih (fun o ho => h o (by simp [ho])) f1
      exact ⟨g, by simp [modifyField, hf, hg]⟩

/-- With a handle, the naming step does not fault on a field. -/
theorem namingStep_some (d : gorm.DB) (f : Field) :
    ∃ g, namingStep (some d) (some f) = .ok (some g) := by
  unfold namingStep
  split
  · rename_i h; cases h
  · rename_i d1 h
    cases h
    split
    · exact ⟨_, rfl⟩
    · exact ⟨_, rfl⟩
    · exact ⟨_, rfl⟩

/-- A relation factory that returns a field yields a field. -/
theorem relationField_some (ext : Externals) (db : Option gorm.DB) (conf : Config)
    (create : FieldOption) (h : create.Operator none ≠ none) :
    ∃ g, relationField ext db conf create = .ok (some g) := by
  unfold relationField
  cases hm : create.Operator none with
  | none => exact absurd hm h
  | some m =>
    cases hr : m.Relation with
    | none => exact ⟨m, by simp [hr]⟩
    | some rel => exact ⟨_, by simp [hr]; rfl⟩

/-- C6. Field order: the output of `getFields` is the fields of the columns that pass the
filter chain, in column order, followed by one field for each relation factory, in
registration order, so its length is the number of passing columns plus the number of
factories; and `getFields` does return an output when the handle is not `nil` and no
modifier or factory returns `nil`. -/
theorem C6_field_order (ext : Externals) (db : Option gorm.DB) (conf : Config)
    (columns : List Column) :
    (∀ out, getFields ext db conf columns = .ok out →
      ∃ cs rs, out = cs ++ rs ∧
        List.Forall₂ (fun col m => columnField ext db conf col = .ok m)
          (columns.filter (passes ext conf)) cs ∧
        List.Forall₂ (fun create m => relationField ext db conf create = .ok m)
          conf.CreateOpts rs ∧
        out.length = (columns.filter (passes ext conf)).length + conf.CreateOpts.length) ∧
    (db ≠ none →
      (∀ opt ∈ conf.ModifyOpts, ∀ f : Field, opt.Operator (some f) ≠ none) →
      (∀ create ∈ conf.CreateOpts, create.Operator none ≠ none) →
      ∃ out, getFields ext db conf columns = .ok out ∧ ∀ m ∈ out, m ≠ none) := by
  constructor
  · intro out h
    obtain ⟨cs, rs, rfl, h1, h2⟩ := (getFields_ok_iff ext db conf columns out).1 h
    exact ⟨cs, rs, rfl, h1, h2, by simp [h1.length_eq, h2.length_eq]⟩
  · intro hdb hmod hcre
    obtain ⟨d, rfl⟩ := Option.ne_none_iff_exists'.1 hdb
    obtain ⟨cs, hcs⟩ := forall₂_of_total
      (fun col m => columnField ext (some d) conf col = .ok m ∧ m ≠ none)
      (columns.filter (passes ext conf)) (by
        intro col _
        obtain ⟨g, hg⟩ := modifyField_isSome conf.ModifyOpts hmod (beforeModify ext (some d) conf col)
        obtain ⟨g1, hg1⟩ := namingStep_some d g
        exact ⟨some g1, by simp [columnField, hg, hg1]⟩)
    obtain ⟨rs, hrs⟩ := forall₂_of_total
      (fun create m => relationField ext (some d) conf create = .ok m ∧ m ≠ none)
      conf.CreateOpts (by
        intro create hc
        obtain ⟨g, hg⟩ := relationField_some ext (some d) conf create (hcre create hc)
        exact ⟨some g, hg, by simp⟩)
    refine ⟨cs ++ rs, (getFields_ok_iff ext (some d) conf columns _).2
      ⟨cs, rs, rfl, hcs.imp (fun _ _ h => h.1), hrs.imp (fun _ _ h => h.1)⟩, ?_⟩
    intro m hm
    rcases List.mem_append.1 hm with hm | hm
    · obtain ⟨i, hi, rfl⟩ := List.getElem_of_mem hm
      have hlen := hcs.length_eq
      exact ((List.forall₂_iff_get.1 hcs).2 i (by omega) hi).2
    · obtain ⟨i, hi, rfl⟩ := List.getElem_of_mem hm
      have hlen := hrs.length_eq
      exact ((List.forall₂_iff_get.1 hrs).2 i (by omega) hi).2

/-- C6 at sample values: three columns of which one is dropped, and one relation factory,
give a list of three fields. -/
theorem C6_field_order_witness :
    ∃ out, getFields Sample.ext (some Sample.db)
        (Sample.conf [Sample.ignore "update_time"] [Sample.retype "int32"]
          [Sample.relate "Orders" "[]model.Order"])
        [Sample.column "id", Sample.column "update_time", Sample.column "is_delete"]
        = .ok out ∧ out.length = 2 + 1 := by
  obtain ⟨out, hout⟩ : ∃ out, getFields Sample.ext (some Sample.db)
      (Sample.conf [Sample.ignore "update_time"] [Sample.retype "int32"]
        [Sample.relate "Orders" "[]model.Order"])
      [Sample.column "id", Sample.column "update_time", Sample.column "is_delete"]
      = .ok out := ⟨_, rfl⟩
  obtain ⟨cs, rs, _, _, _, h⟩ := (C6_field_order Sample.ext (some Sample.db) _ _).1 out hout
  exact ⟨out, hout, h⟩

/-! ## The type of a relation field -/

/-- The field a relation factory creates when it carries a relation descriptor. -/
theorem relationField_relation (ext : Externals) (db : Option gorm.DB) (conf : Config)
    (create : FieldOption) (m : Field) (hm : create.Operator none = some m)
    (hrel : m.Relation ≠ none) :
    ∃ f, relationField ext db conf create = .ok (some f) ∧
      f.Type_ = strings.ReplaceAll m.Type_ (conf.ModelPkg ++ ".") "" := by
  unfold relationField
  cases hr : m.Relation with
  | none => exact absurd hr hrel
  | some rel => exact ⟨_, by simp only [hm, hr]; rfl, rfl⟩

/-- C10 as stated fails: with the model package `model`, a relation field of type
`[]momodel.del.Pet` comes out with the type `[]model.Pet`, which holds the prefix. -/
theorem C10_relation_type_counterexample :
    ∃ f, getFields Sample.ext (some Sample.db)
        (Sample.conf [] [] [Sample.relate "Pets" "[]momodel.del.Pet"]) [] = .ok [some f] ∧
      f.Relation.isSome = true ∧
      f.Type_ = "[]model.Pet" ∧
      ((Sample.conf [] [] [Sample.relate "Pets" "[]momodel.del.Pet"]).ModelPkg ++ ".").data
        <:+: f.Type_.data :=
  ⟨_, rfl, rfl, by decide, ⟨"[]".data, "Pet".data, by decide⟩⟩

/-- C10, amended. Relation type stripping: the type of a relation field that carries a
relation descriptor is, in the output of `getFields`, the result of one pass of
`strings.ReplaceAll` deleting the prefix `ModelPkg + "."`: the type splits into pieces
joined by the prefix, the output type is the pieces joined by nothing, and no piece
contains the prefix; the output type contains no occurrence of the prefix when no
occurrence of the prefix in the type is directly preceded by a character of `ModelPkg`. -/
theorem C10_relation_type (ext : Externals) (db : Option gorm.DB) (conf : Config)
    (columns : List Column) (out : List (Option Field))
    (hout : getFields ext db conf columns = .ok out)
    (i : Nat) (create : FieldOption) (m : Field)
    (hi : conf.CreateOpts[i]? = some create)
    (hm : create.Operator none = some m) (hrel : m.Relation ≠ none) :
    ∃ f, out[(columns.filter (passes ext conf)).length + i]? = some (some f) ∧
      f.Type_ = strings.ReplaceAll m.Type_ (conf.ModelPkg ++ ".") "" ∧
      (∃ pieces : List (List Char),
        m.Type_.data = strings.joinWith (conf.ModelPkg ++ ".").data pieces ∧
        f.Type_.data = pieces.flatten ∧
        ∀ c ∈ pieces, ¬ (conf.ModelPkg ++ ".").data <:+: c) ∧
      ((∀ a b x, m.Type_.data = a ++ x :: ((conf.ModelPkg ++ ".").data ++ b) →
          x ∉ conf.ModelPkg.data) →
        ¬ (conf.ModelPkg ++ ".").data <:+: f.Type_.data) := by
  obtain ⟨cs, rs, rfl, hcs, hrs⟩ := (getFields_ok_iff ext db conf columns out).1 hout
  obtain ⟨f, hf, hT⟩ := relationField_relation ext db conf create m hm hrel
  have hlen : i < conf.CreateOpts.length := by
    by_contra hge
    rw [List.getElem?_eq_none (by omega)] at hi
    cases hi
  have hci : conf.CreateOpts[i] = create := by
    rw [List.getElem?_eq_getElem hlen] at hi
    exact Option.some.inj hi
  have hlen2 : i < rs.length := by rw [← hrs.length_eq]; exact hlen
  have hri : rs[i] = some f := by
    have h1 := (List.forall₂_iff_get.1 hrs).2 i hlen hlen2
    simp only [List.get_eq_getElem, hci, hf, Except.ok.injEq] at h1
    exact h1.symm
  have hp : (conf.ModelPkg ++ ".").data = conf.ModelPkg.data ++ ['.'] := by
    simp [String.data_append]
  have hd : f.Type_.data = strings.removeAll (conf.ModelPkg.data ++ ['.']) [] 0 m.Type_.data := by
    rw [hT, strings.ReplaceAll_dot]
  refine ⟨f, ?_, hT, ?_, ?_⟩
  · rw [hcs.length_eq, List.getElem?_append_right (by omega)]
    simp only [Nat.add_sub_cancel_left]
    rw [List.getElem?_eq_getElem hlen2, hri]
  · obtain ⟨pieces, _, h2, h3, h4⟩ :=
      strings.removeAll_pieces (conf.ModelPkg.data ++ ['.']) (by simp) m.Type_.data
    exact ⟨pieces, by rw [hp]; exact h2, by rw [hd]; exact h3, by rw [hp]; exact h4⟩
  · intro hC
    rw [hp, hd]
    apply strings.removeAll_free
    intro a b x hx
    apply hC a b x
    rw [hp]
    exact hx

/-- C10, amended, at sample values: with the model package `model` the relation field of
type `[]model.Order` comes out with the type `[]Order`, free of the prefix. -/
theorem C10_relation_type_witness :
    ∃ out f, getFields Sample.ext (some Sample.db)
        (Sample.conf [] [] [Sample.relate "Orders" "[]model.Order"])
        [Sample.column "id"] = .ok out ∧
      out[1]? = some (some f) ∧
      f.Type_ = "[]Order" ∧ ¬ "model.".data <:+: f.Type_.data := by
  obtain ⟨out, hout⟩ : ∃ out, getFields Sample.ext (some Sample.db)
      (Sample.conf [] [] [Sample.relate "Orders" "[]model.Order"])
      [Sample.column "id"] = .ok out := ⟨_, rfl⟩
  obtain ⟨f, h1, h2, _, h4⟩ := C10_relation_type Sample.ext (some Sample.db)
    (Sample.conf [] [] [Sample.relate "Orders" "[]model.Order"])
    [Sample.column "id"] out hout 0 (Sample.relate "Orders" "[]model.Order") _ rfl rfl
    (by simp [Sample.relate])
  have h5 : f.Type_ = "[]Order" := by rw [h2]; decide
  refine ⟨out, f, hout, h1, h5, ?_⟩
  · apply h4
    intro a b x hx
    have hx' : "[]model.Order".data = a ++ x :: ("model.".data ++ b) := hx
    have hdrop : ("[]model.Order".data).drop a.length = x :: ("model.".data ++ b) := by
      rw [hx', List.drop_left]
    have hlt : a.length < 13 := by
      have := congrArg List.length hx'
      simp only [List.length_append, List.length_cons] at this
      have h13 : ("[]model.Order".data).length = 13 := by decide
      omega
    have key : ∀ n < 13, "model.".data.isPrefixOf (("[]model.Order".data).drop n).tail = true →
        ∀ y ∈ (("[]model.Order".data).drop n).head?, y ∉ "model".data := by
      decide
    apply key a.length hlt
    · rw [hdrop, List.tail_cons, List.isPrefixOf_iff_prefix]
      exact ⟨b, rfl⟩
    · rw [hdrop]; rfl

end generate

/-! ## Properties of `Config.Revise` and of the generation modes -/

namespace gen

/-- The default of the model package path touches no other field. -/
theorem defaultModelPkgPath_frame (env : Env) (cfg : Config) :
    (cfg.defaultModelPkgPath env).OutPath = cfg.OutPath ∧
    (cfg.defaultModelPkgPath env).OutFile = cfg.OutFile ∧
    (cfg.defaultModelPkgPath env).queryPkgName = cfg.queryPkgName ∧
    (cfg.defaultModelPkgPath env).db = cfg.db := by
  unfold Config.defaultModelPkgPath
  split <;> exact ⟨rfl, rfl, rfl, rfl⟩

/-- Lines 175 to 193 of `Revise` when the output path resolves to a non-empty path. -/
theorem reviseOutput_ok (env : Env) (cfg : Config) (A : String)
    (habs : env.Abs cfg.OutPath = (A, none)) (hA : A ≠ "") :
    (cfg.reviseOutput env).2 = none ∧ (cfg.reviseOutput env).1.OutPath = A ∧
    (cfg.reviseOutput env).1.queryPkgName = env.Base A ∧
    (cfg.reviseOutput env).1.OutFile =
      if cfg.OutFile = "" then env.Join A "gen.go"
      else if strings.ContainsChar cfg.OutFile env.PathSeparator = false then
        env.Join A cfg.OutFile
      else cfg.OutFile := by
  cases hdb : cfg.db <;> by_cases hf : cfg.OutFile = "" <;>
    cases hc : strings.ContainsChar cfg.OutFile env.PathSeparator <;>
    simp [Config.reviseOutput, habs, hA, hf, hc, hdb]

/-- C7. Revise postcondition: when `filepath.Abs` resolves the output path to `A` without
error, `A` being a non-empty path as every absolute path is, `Revise` returns no error and
leaves `OutPath = A`, the query package name equal to the base name of `A`, and `OutFile`
equal to `Join(A, "gen.go")` if it was empty, to `Join(A, OutFile)` if it held no path
separator, and unchanged otherwise; so an empty `OutFile` with `OutPath` `./out` resolved
to `cwd/out` gives `cwd/out/gen.go`. -/
theorem C7_revise_postcondition (env : Env) (cfg : Config) (A : String)
    (habs : env.Abs cfg.OutPath = (A, none)) (hA : A ≠ "") :
    (cfg.Revise env).2 = none ∧
    (cfg.Revise env).1.OutPath = A ∧
    (cfg.Revise env).1.queryPkgName = env.Base A ∧
    (cfg.OutFile = "" → (cfg.Revise env).1.OutFile = env.Join A "gen.go") ∧
    (cfg.OutFile ≠ "" → env.PathSeparator ∉ cfg.OutFile.data →
      (cfg.Revise env).1.OutFile = env.Join A cfg.OutFile) ∧
    (cfg.OutFile ≠ "" → env.PathSeparator ∈ cfg.OutFile.data →
      (cfg.Revise env).1.OutFile = cfg.OutFile) ∧
    (∀ cwd : String, cfg.OutPath = "./out" → cfg.OutFile = "" → A = cwd ++ "/out" →
      env.Join A "gen.go" = A ++ "/gen.go" →
      (cfg.Revise env).1.OutFile = cwd ++ "/out/gen.go") := by
  obtain ⟨f1, f2, _, _⟩ := defaultModelPkgPath_frame env cfg
  obtain ⟨k1, k2, k3, k4⟩ := reviseOutput_ok env (cfg.defaultModelPkgPath env) A
    (by rw [f1]; exact habs) hA
  rw [f2] at k4
  refine ⟨k1, k2, k3, ?_, ?_, ?_, ?_⟩
  · intro hf
    simp only [Config.Revise, k4, if_pos hf]
  · intro hf hs
    have : strings.ContainsChar cfg.OutFile env.PathSeparator = false := by
      simpa [strings.ContainsChar] using hs
    simp only [Config.Revise, k4, if_neg hf, if_pos this]
  · intro hf hs
    have : strings.ContainsChar cfg.OutFile env.PathSeparator = true := by
      simpa [strings.ContainsChar] using hs
    simp [Config.Revise, k4, hf, this]
  · intro cwd _ hf hcwd hjoin
    simp only [Config.Revise, k4, if_pos hf, hjoin]
    rw [hcwd, String.append_assoc]
    rfl

/-- C7 at sample values: `OutPath` `./out` under the working directory `/work` with an
empty `OutFile` gives `/work/out/gen.go` and the package name `out`. -/
theorem C7_revise_postcondition_witness :
    ((Sample.config "./out" "" 0).Revise Sample.env).1.OutFile = "/work/out/gen.go" ∧
    ((Sample.config "./out" "" 0).Revise Sample.env).1.queryPkgName = "out" ∧
    ((Sample.config "./out" "" 0).Revise Sample.env).1.OutPath = "/work/out" := by
  have h := C7_revise_postcondition Sample.env (Sample.config "./out" "" 0) "/work/out"
    (by decide) (by decide)
  exact ⟨h.2.2.2.2.2.2 "/work" rfl rfl (by decide) (by decide), h.2.2.1, h.2.1⟩

/-- C8. `Revise` returns an error if and only if `filepath.Abs` returns one for the output
path; it then returns at once with that error wrapped, and `OutFile`, the query package
name and the handle are as they were. -/
theorem C8_revise_error (env : Env) (cfg : Config) :
    ((cfg.Revise env).2 ≠ none ↔ (env.Abs cfg.OutPath).2 ≠ none) ∧
    (∀ err, (env.Abs cfg.OutPath).2 = some err →
      (cfg.Revise env).2 = some ("outpath is invalid: " ++ err) ∧
      (cfg.Revise env).1.OutFile = cfg.OutFile ∧
      (cfg.Revise env).1.queryPkgName = cfg.queryPkgName ∧
      (cfg.Revise env).1.db = cfg.db) := by
  obtain ⟨f1, f2, f3, f4⟩ := defaultModelPkgPath_frame env cfg
  constructor
  · simp only [Config.Revise, Config.reviseOutput, f1]
    cases h : (env.Abs cfg.OutPath).2 <;> simp
  · intro err h
    simp only [Config.Revise, Config.reviseOutput, f1, h, true_and]
    exact ⟨f2, f3, f4⟩

/-- C8 at sample values: with no working directory the relative path `./out` cannot be made
absolute, `Revise` returns the error and `OutFile` keeps its value. -/
theorem C8_revise_error_witness :
    ((Sample.config "./out" "q.go" 0).Revise Sample.envNoCwd).2
      = some "outpath is invalid: getwd: no such file or directory" ∧
    ((Sample.config "./out" "q.go" 0).Revise Sample.envNoCwd).1.OutFile = "q.go" := by
  have h := (C8_revise_error Sample.envNoCwd (Sample.config "./out" "q.go" 0)).2
    "getwd: no such file or directory" (by decide)
  exact ⟨h.1, h.2.1⟩

/-- The OR of a list of modes, one mode at a time. -/
theorem modeOf_cons (x : GenerateMode) (S : List GenerateMode) :
    modeOf (x :: S) = x ||| modeOf S := by
  have h : ∀ (S : List GenerateMode) (a : GenerateMode),
      S.foldl (fun a b => a ||| b) a = a ||| S.foldl (fun a b => a ||| b) 0 := by
    intro S
    induction S with
    | nil => intro a; simp
    | cons y S ih =>
      intro a
      simp only [List.foldl_cons, Nat.zero_or]
      rw [ih (a ||| y), ih y, Nat.lor_assoc]
  simp only [modeOf, List.foldl_cons, Nat.zero_or]
  exact h S x

/-- One more flag in a mode below 16: the tests of the single flags. -/
theorem judge_or (v : Nat) (hv : v < 16) :
    ∀ x ∈ modeFlags, ∀ f ∈ modeFlags,
      (x ||| v < 16) ∧ (((x ||| v) &&& f != 0) = true ↔ (f = x ∨ (v &&& f != 0) = true)) := by
  interval_cases v <;> decide

/-- C9. Generation-mode flags are independent bits: the four flags are 1, 2, 4 and 8, and
for every list `S` of them, with `Mode` the bitwise OR of `S`, `judgeMode(f)` holds of a
flag `f` if and only if `f` is in `S`. -/
theorem C9_mode_flags :
    (WithDefaultQuery = 1 ∧ WithoutContext = 2 ∧ WithQueryInterface = 4 ∧ WithGeneric = 8) ∧
    ∀ (cfg : Config) (S : List GenerateMode), (∀ x ∈ S, x ∈ modeFlags) →
      cfg.Mode = modeOf S →
      ∀ f ∈ modeFlags, (cfg.judgeMode f = true ↔ f ∈ S) := by
  refine ⟨by decide, ?_⟩
  intro cfg S hS hmode f hf
  have key : ∀ S : List GenerateMode, (∀ x ∈ S, x ∈ modeFlags) →
      modeOf S < 16 ∧ ((modeOf S &&& f != 0) = true ↔ f ∈ S) := by
    intro S
    induction S with
    | nil =>
      intro _
      refine ⟨by decide, ?_⟩
      simp [modeOf]
    | cons x S ih =>
      intro hS
      obtain ⟨h1, h2⟩ := ih (fun y hy => hS y (by simp [hy]))
      obtain ⟨h3, h4⟩ := judge_or (modeOf S) h1 x (hS x (by simp)) f hf
      rw [modeOf_cons]
      refine ⟨h3, ?_⟩
      rw [h4, h2]
      simp
  simp only [Config.judgeMode, hmode]
  exact (key S hS).2

/-- C9 at sample values: with `Mode = WithDefaultQuery | WithQueryInterface` the test of
`WithQueryInterface` holds and the test of `WithoutContext` does not. -/
theorem C9_mode_flags_witness :
    (Sample.config "" "" (WithDefaultQuery ||| WithQueryInterface)).judgeMode
        WithQueryInterface = true ∧
    ¬ (Sample.config "" "" (WithDefaultQuery ||| WithQueryInterface)).judgeMode
        WithoutContext = true :=
  ⟨(C9_mode_flags.2 (Sample.config "" "" (WithDefaultQuery ||| WithQueryInterface))
      [WithDefaultQuery, WithQueryInterface] (by decide) (by decide)
      WithQueryInterface (by decide)).2 (by decide),
   fun h => absurd ((C9_mode_flags.2
      (Sample.config "" "" (WithDefaultQuery ||| WithQueryInterface))
      [WithDefaultQuery, WithQueryInterface] (by decide) (by decide)
      WithoutContext (by decide)).1 h) (by decide)⟩

end gen

/-! ## The final name of a field and the soft-delete cross-reference -/

namespace generate

open model

/-- The type-tag step and the soft-delete step leave the name of the field alone. -/
theorem beforeModify_name (ext : Externals) (db : Option gorm.DB) (conf : Config)
    (col : Column) : (beforeModify ext db conf col).Name = (filteredField ext conf col).Name := by
  simp only [beforeModify, softDeleteStep, typeTagStep]
  split <;> split <;> (try split) <;> rfl

/-- Filters that leave the name alone when they write leave the name of the field alone. -/
theorem filteredField_name (ext : Externals) (conf : Config) (col : Column)
    (h : ∀ opt ∈ conf.FilterOpts, ∀ x : Field, (opt.Write x).Name = x.Name) :
    (filteredField ext conf col).Name = (convertColumn ext conf col).Name := by
  have hw : ∀ (opts : List FieldOption) (m : Field),
      (∀ opt ∈ opts, ∀ x : Field, (opt.Write x).Name = x.Name) →
      (writes opts m).Name = m.Name := by
    intro opts
    induction opts with
    | nil => intro m _; rfl
    | cons o opts ih =>
      intro m ho
      rw [writes_cons, ih (o.Write m) (fun p hp => ho p (by simp [hp])), ho o (by simp) m]
  unfold filteredField
  cases hf : filterField (some (convertColumn ext conf col)) conf.FilterOpts with
  | none => rfl
  | some f =>
    have h1 := filterField_eq_writes (convertColumn ext conf col) conf.FilterOpts
      (by rw [hf]; simp)
    rw [hf] at h1
    simp only [Option.some.injEq] at h1
    simp only [Option.getD_some, h1]
    exact hw _ _ h

/-- A modify chain of options that return the field with its name unchanged returns a field
with the name unchanged. -/
theorem modifyField_name (opts : List FieldOption)
    (h : ∀ opt ∈ opts, ∀ x : Field, ∃ y, opt.Operator (some x) = some y ∧ y.Name = x.Name)
    (f : Field) : ∃ g, modifyField (some f) opts = some g ∧ g.Name = f.Name := by
  induction opts generalizing f with
  | nil => exact ⟨f, rfl, rfl⟩
  | cons opt opts ih =>
    obtain ⟨y, hy, hn⟩ := h opt (by simp) f
    obtain ⟨g, hg, hgn⟩ := ih (fun o ho => h o (by simp [ho])) y
    exact ⟨g, by simp only [modifyField, hy, hg], by rw [hgn, hn]⟩

/-- The naming step on a field, by the kind of naming strategy. -/
theorem namingStep_name (d : gorm.DB) (g : Field) :
    ∃ f, namingStep (some d) (some g) = .ok (some f) ∧
      (∀ ns, d.NamingStrategy = some (.strategy ns) →
        f.Name = gorm.NamingStrategy.SchemaName { ns with SingularTable := true }
          (ns.TablePrefix ++ g.Name)) ∧
      (∀ SchemaName, d.NamingStrategy = some (.custom SchemaName) →
        f.Name = SchemaName g.Name) ∧
      (d.NamingStrategy = none → f.Name = g.Name) := by
  cases hd : d.NamingStrategy with
  | none =>
    refine ⟨g, by simp [namingStep, hd], ?_, ?_, fun _ => rfl⟩
    · intro ns h; cases h
    · intro SN h; cases h
  | some namer =>
    cases namer with
    | strategy ns =>
      refine ⟨{ g with Name := (gorm.NamingStrategy.SchemaName
        { ns with SingularTable := true } (ns.TablePrefix ++ g.Name)) },
        by simp only [namingStep, hd], ?_, ?_, ?_⟩
      · intro ns1 h
        simp only [Option.some.injEq, gorm.Namer.strategy.injEq] at h
        subst h
        rfl
      · intro SN h; cases h
      · intro h; cases h
    | custom SN =>
      refine ⟨{ g with Name := SN g.Name }, by simp only [namingStep, hd], ?_, ?_, ?_⟩
      · intro ns1 h; cases h
      · intro SN1 h
        simp only [Option.some.injEq, gorm.Namer.custom.injEq] at h
        subst h
        rfl
      · intro h; cases h

/-- C11 as stated fails: a modify option that renames the field of the column `id` to
`custom_name` makes the final name `CustomName`, not the namer applied to `id`; so does a
filter that writes that name through the pointer. -/
theorem C11_final_naming_counterexample :
    (∃ f, getFields Sample.ext (some Sample.db)
        (Sample.conf [] [Sample.rename "id" "custom_name"] []) [Sample.column "id"]
        = .ok [some f] ∧
      f.Name = "CustomName" ∧ Sample.pascal (Sample.column "id").Name = "Id" ∧
      f.Name ≠ Sample.pascal (Sample.column "id").Name) ∧
    (∃ f, getFields Sample.ext (some Sample.db)
        (Sample.conf [Sample.writeName "custom_name"] [] []) [Sample.column "id"]
        = .ok [some f] ∧
      f.Name = "CustomName" ∧
      f.Name ≠ Sample.pascal (Sample.column "id").Name) :=
  ⟨⟨_, rfl, by decide, by decide, by decide⟩, ⟨_, rfl, by decide, by decide⟩⟩

/-- C11, amended. Final naming: for a column that passes the filter chain, the entry of the
output of `getFields` is the field the modify chain returns with its name replaced by the
naming strategy applied to the name the modify chain left (table-prefixed for the library
strategy, unchanged when there is no naming strategy); that name is the raw column name
when the converted field is named after the column, no filter writes another name through
the pointer and every modify option returns the field with its name unchanged. -/
theorem C11_final_naming (ext : Externals) (d : gorm.DB) (conf : Config)
    (pre post : List Column) (col : Column) (out : List (Option Field))
    (hpass : passes ext conf col = true)
    (hout : getFields ext (some d) conf (pre ++ col :: post) = .ok out) :
    ∃ A e B, out = A ++ e :: B ∧ A.length = (pre.filter (passes ext conf)).length ∧
      (∀ g, modifyField (some (beforeModify ext (some d) conf col)) conf.ModifyOpts = some g →
        ∃ f, e = some f ∧
          (∀ ns, d.NamingStrategy = some (.strategy ns) →
            f.Name = gorm.NamingStrategy.SchemaName { ns with SingularTable := true }
              (ns.TablePrefix ++ g.Name)) ∧
          (∀ SchemaName, d.NamingStrategy = some (.custom SchemaName) →
            f.Name = SchemaName g.Name) ∧
          (d.NamingStrategy = none → f.Name = g.Name)) ∧
      ((convertColumn ext conf col).Name = col.Name →
        (∀ opt ∈ conf.FilterOpts, ∀ x : Field, (opt.Write x).Name = x.Name) →
        (∀ opt ∈ conf.ModifyOpts, ∀ x : Field,
          ∃ y, opt.Operator (some x) = some y ∧ y.Name = x.Name) →
        ∃ f, e = some f ∧
          (∀ ns, d.NamingStrategy = some (.strategy ns) →
            f.Name = gorm.NamingStrategy.SchemaName { ns with SingularTable := true }
              (ns.TablePrefix ++ col.Name)) ∧
          (∀ SchemaName, d.NamingStrategy = some (.custom SchemaName) →
            f.Name = SchemaName col.Name) ∧
          (d.NamingStrategy = none → f.Name = col.Name)) := by
  obtain ⟨cs, rs, rfl, hcs, _⟩ := (getFields_ok_iff ext (some d) conf _ out).1 hout
  rw [List.filter_append, List.filter_cons, hpass, if_pos rfl] at hcs
  obtain ⟨A, e, B, rfl, hA, he⟩ := forall₂_split _ _ _ _ _ hcs
  have key : ∀ g, modifyField (some (beforeModify ext (some d) conf col)) conf.ModifyOpts
      = some g →
      ∃ f, e = some f ∧
        (∀ ns, d.NamingStrategy = some (.strategy ns) →
          f.Name = gorm.NamingStrategy.SchemaName { ns with SingularTable := true }
            (ns.TablePrefix ++ g.Name)) ∧
        (∀ SchemaName, d.NamingStrategy = some (.custom SchemaName) →
          f.Name = SchemaName g.Name) ∧
        (d.NamingStrategy = none → f.Name = g.Name) := by
    intro g hg
    obtain ⟨f, hf, h1, h2, h3⟩ := namingStep_name d g
    simp only [columnField, hg, hf, Except.ok.injEq] at he
    exact ⟨f, he.symm, h1, h2, h3⟩
  refine ⟨A, e, B ++ rs, by simp, hA, key, ?_⟩
  intro hconv hfil hmod
  obtain ⟨g, hg, hgn⟩ := modifyField_name conf.ModifyOpts hmod
    (beforeModify ext (some d) conf col)
  obtain ⟨f, hf, h1, h2, h3⟩ := key g hg
  rw [hgn, beforeModify_name, filteredField_name ext conf col hfil, hconv] at h1 h2 h3
  exact ⟨f, hf, h1, h2, h3⟩

/-- C11, amended, at sample values: with a modifier that only sets the type, the column
`is_delete` gets the final name `IsDelete`. -/
theorem C11_final_naming_witness :
    ∃ A f B, getFields Sample.ext (some Sample.db)
        (Sample.conf [] [Sample.retype "int32"] [])
        ([Sample.column "id"] ++ Sample.column "is_delete" :: []) = .ok (A ++ some f :: B) ∧
      A.length = 1 ∧ f.Name = "IsDelete" := by
  obtain ⟨out, hout⟩ : ∃ out, getFields Sample.ext (some Sample.db)
      (Sample.conf [] [Sample.retype "int32"] [])
      ([Sample.column "id"] ++ Sample.column "is_delete" :: []) = .ok out := ⟨_, rfl⟩
  obtain ⟨A, e, B, h1, h2, _, h4⟩ := C11_final_naming Sample.ext Sample.db
    (Sample.conf [] [Sample.retype "int32"] []) [Sample.column "id"] []
    (Sample.column "is_delete") out rfl hout
  obtain ⟨f, hf, _, h6, _⟩ := h4 rfl (by
    intro opt hopt x
    simp [Sample.conf] at hopt) (by
    intro opt hopt x
    simp only [Sample.conf, List.mem_singleton] at hopt
    subst hopt
    exact ⟨_, rfl, rfl⟩)
  subst hf
  exact ⟨A, f, B, h1 ▸ hout, h2, h6 Sample.pascal rfl⟩

/-- C12 at the failing input: with the library strategy and table prefix `t_`, flag column
`is_delete` and time column `t_deleted_at`, no modify option, the flag field carries
`DeletedAtField=DeletedAt` while the field of the time column is named `TDeletedAt`. -/
theorem C12_cross_reference_failing_input :
    ∃ flag time, getFields Sample.ext (some Sample.dbStrategy) Sample.confPrefixed
        [Sample.column "is_delete", Sample.column "t_deleted_at"]
        = .ok [some flag, some time] ∧
      flag.GORMTag.Get "DeletedAtField" = ["DeletedAt"] ∧
      time.ColumnName = "t_deleted_at" ∧
      time.Name = "TDeletedAt" ∧
      flag.GORMTag.Get "DeletedAtField" ≠ [time.Name] :=
  ⟨_, _, rfl, by decide, by decide, by decide, by decide⟩

end generate

/-! ## The accumulated option and import lists -/

namespace gen

/-- C13. Option and import lists are append-only: `WithOpts`, `WithDbNameOpts` and
`WithImportPkgPath` leave the entries accumulated so far as a prefix in their order and add
one entry for each argument after them, in argument order, so the length grows by the
number of arguments. -/
theorem C13_append_only (cfg : Config) :
    (∀ opts : List ModelOpt,
      (cfg.WithOpts opts).modelOpts = cfg.modelOpts ++ opts ∧
      (cfg.WithOpts opts).modelOpts.length = cfg.modelOpts.length + opts.length) ∧
    (∀ opts : List (Option gorm.DB → String),
      (cfg.WithDbNameOpts opts).dbNameOpts = cfg.dbNameOpts ++ opts ∧
      (cfg.WithDbNameOpts opts).dbNameOpts.length = cfg.dbNameOpts.length + opts.length) ∧
    (∀ paths : List String,
      (cfg.WithImportPkgPath paths).importPkgPaths
        = cfg.importPkgPaths ++ paths.map importPath ∧
      (cfg.WithImportPkgPath paths).importPkgPaths.length
        = cfg.importPkgPaths.length + paths.length) := by
  refine ⟨?_, ?_, ?_⟩
  · intro opts
    have h : (cfg.WithOpts opts).modelOpts = cfg.modelOpts ++ opts := by
      unfold Config.WithOpts
      cases hc : cfg.modelOpts with
      | nil => simp
      | cons a l => simp [hc]
    exact ⟨h, by rw [h, List.length_append]⟩
  · intro opts
    have h : (cfg.WithDbNameOpts opts).dbNameOpts = cfg.dbNameOpts ++ opts := by
      unfold Config.WithDbNameOpts
      cases hc : cfg.dbNameOpts with
      | nil => simp
      | cons a l => simp [hc]
    exact ⟨h, by rw [h, List.length_append]⟩
  · intro paths
    exact ⟨rfl, by simp [Config.WithImportPkgPath]⟩

end gen

/-! ## The type-tag step and the soft-delete step -/

namespace generate

open model

/-- After `Remove`, the key holds no value. -/
theorem GormTag_get_remove_self (tag : GormTag) (key : String) :
    (tag.Remove key).Get key = [] := by
  simp [GormTag.Remove, GormTag.Get, List.filter_filter]

/-- `Remove` leaves the values under the other keys as they were. -/
theorem GormTag_get_remove_other (tag : GormTag) (key other : String) (h : key ≠ other) :
    (tag.Remove key).Get other = tag.Get other := by
  have h1 : ∀ kv : String × String,
      ((kv.1 == other) && !(kv.1 == key)) = (kv.1 == other) := by
    intro kv
    by_cases h2 : kv.1 = other
    · subst h2; simp [Ne.symm h]
    · simp [h2]
  simp [GormTag.Remove, GormTag.Get, List.filter_filter, h1]

/-- The soft-delete step never touches the `type` tag. -/
theorem softDeleteStep_type_tag (db : Option gorm.DB) (conf : Config) (col : Column)
    (m : Field) : (softDeleteStep db conf col m).GORMTag.Get "type" = m.GORMTag.Get "type" := by
  unfold softDeleteStep
  split
  · split
    · simp only
      rw [GormTag_get_set_other _ _ _ _ (by decide), GormTag_get_set_other _ _ _ _ (by decide)]
    · simp only
      rw [GormTag_get_set_other _ _ _ _ (by decide)]
  · rfl

/-- The field after a filter chain of options that do not write through their argument is
the converted field. -/
theorem filteredField_eq_convert (ext : Externals) (conf : Config) (col : Column)
    (hw : ∀ opt ∈ conf.FilterOpts, ∀ f : Field, opt.Write f = f) :
    filteredField ext conf col = convertColumn ext conf col := by
  unfold filteredField
  cases hf : filterField (some (convertColumn ext conf col)) conf.FilterOpts with
  | none => rfl
  | some f =>
    have h1 := filterField_eq_writes (convertColumn ext conf col) conf.FilterOpts
      (by rw [hf]; simp)
    rw [hf, writes_eq_self _ _ hw] at h1
    simp only [Option.some.injEq] at h1
    simp only [Option.getD_some, h1]

/-- C14. Type-tag stripping: for a column that passes the filter chain the field goes
through the type-tag step before the soft-delete step and the modify chain; when the
native type of the column is available and `FieldWithTypeTag` is false the step removes the
`type` tag, leaving the values under every other key, the type and the other parts of the
field as they were, and otherwise it leaves the whole field as it was. -/
theorem C14_type_tag (ext : Externals) (db : Option gorm.DB) (conf : Config) (col : Column) :
    (passes ext conf col = true → ∀ (rest : List Column) (fields : List (Option Field)),
      columnFields ext db conf (col :: rest) fields =
        match namingStep db (modifyField (some (softDeleteStep db conf (bindColumn conf col)
          (typeTagStep conf (bindColumn conf col) (filteredField ext conf col))))
          conf.ModifyOpts) with
        | .error e => .error e
        | .ok m => columnFields ext db conf rest (fields ++ [m])) ∧
    (∀ m : Field, col.ColumnType.ColumnType.2 = true → conf.FieldWithTypeTag = false →
      (typeTagStep conf (bindColumn conf col) m).GORMTag.Get "type" = [] ∧
      (∀ key, key ≠ "type" →
        (typeTagStep conf (bindColumn conf col) m).GORMTag.Get key = m.GORMTag.Get key) ∧
      (typeTagStep conf (bindColumn conf col) m).Type_ = m.Type_ ∧
      (typeTagStep conf (bindColumn conf col) m).Name = m.Name ∧
      (typeTagStep conf (bindColumn conf col) m).ColumnName = m.ColumnName ∧
      (typeTagStep conf (bindColumn conf col) m).Relation = m.Relation ∧
      (beforeModify ext db conf col).GORMTag.Get "type" = []) ∧
    (∀ m : Field, ¬ (col.ColumnType.ColumnType.2 = true ∧ conf.FieldWithTypeTag = false) →
      typeTagStep conf (bindColumn conf col) m = m ∧
      (beforeModify ext db conf col).GORMTag.Get "type"
        = (filteredField ext conf col).GORMTag.Get "type" ∧
      ((∀ opt ∈ conf.FilterOpts, ∀ f : Field, opt.Write f = f) →
        (beforeModify ext db conf col).GORMTag.Get "type"
          = (convertColumn ext conf col).GORMTag.Get "type")) := by
  refine ⟨?_, ?_, ?_⟩
  · intro hpass rest fields
    have hp : (filterField (some (convertColumn ext conf col)) conf.FilterOpts).isNone = false := by
      simpa [passes] using hpass
    simp only [columnFields, hp, columnField]
    rfl
  · intro m h1 h2
    have hb : (bindColumn conf col).ColumnType.ColumnType.2 = true := h1
    have hstep : ∀ x : Field, typeTagStep conf (bindColumn conf col) x
        = { x with GORMTag := x.GORMTag.Remove "type" } := by
      intro x
      simp [typeTagStep, hb, h2]
    refine ⟨?_, ?_, ?_, ?_, ?_, ?_, ?_⟩
    · rw [hstep]; exact GormTag_get_remove_self _ _
    · intro key hkey
      rw [hstep]; exact GormTag_get_remove_other _ _ _ (Ne.symm hkey)
    · rw [hstep]
    · rw [hstep]
    · rw [hstep]
    · rw [hstep]
    · simp only [beforeModify]
      rw [softDeleteStep_type_tag, hstep]
      exact GormTag_get_remove_self _ _
  · intro m h
    have hb : (bindColumn conf col).ColumnType.ColumnType.2 = col.ColumnType.ColumnType.2 := rfl
    have hstep : ∀ x : Field, typeTagStep conf (bindColumn conf col) x = x := by
      intro x
      simp only [typeTagStep, hb]
      split
      · rename_i hc
        simp only [Bool.and_eq_true, Bool.not_eq_true'] at hc
        exact absurd hc h
      · rfl
    have hbm : (beforeModify ext db conf col).GORMTag.Get "type"
        = (filteredField ext conf col).GORMTag.Get "type" := by
      simp only [beforeModify]
      rw [softDeleteStep_type_tag, hstep]
    refine ⟨hstep m, hbm, ?_⟩
    intro hw
    rw [hbm, filteredField_eq_convert ext conf col hw]

/-- C14 at sample values: the column `id` has a native type and `FieldWithTypeTag` is false,
and its field reaches the modify chain without the `type` tag and with its `column` tag. -/
theorem C14_type_tag_witness :
    (beforeModify Sample.ext (some Sample.db) (Sample.conf [] [] [])
      (Sample.column "id")).GORMTag.Get "type" = [] ∧
    (typeTagStep (Sample.conf [] [] []) (bindColumn (Sample.conf [] [] []) (Sample.column "id"))
      Sample.idField).GORMTag.Get "column" = ["id"] ∧
    typeTagStep Sample.confPrefixed (bindColumn Sample.confPrefixed (Sample.column "id"))
      Sample.idField = Sample.idField := by
  have h := (C14_type_tag Sample.ext (some Sample.db) (Sample.conf [] [] [])
    (Sample.column "id")).2.1 Sample.idField rfl rfl
  have h2 := (C14_type_tag Sample.ext (some Sample.db) Sample.confPrefixed
    (Sample.column "id")).2.2 Sample.idField (by decide)
  exact ⟨h.2.2.2.2.2.2, (h.2.1 "column" (by decide)).trans (by decide), h2.1⟩

/-- C15. Soft-delete policy: the soft-delete step changes a field only for a column whose
name equals a non-empty `SoftDeleteFlagColumn` (so with an empty flag column it changes no
field); for such a column it sets the type `soft_delete.DeletedAt` and the tag
`softDelete=flag`, and it sets `DeletedAtField` exactly when `SoftDeleteTimeColumn` is not
empty: in flag-only mode the tags are those of the field with `softDelete=flag` set and
nothing else. -/
theorem C15_soft_delete_policy (db : Option gorm.DB) (conf : Config) (col : Column)
    (m : Field) :
    (¬ (conf.SoftDeleteFlagColumn ≠ "" ∧ col.Name = conf.SoftDeleteFlagColumn) →
      softDeleteStep db conf col m = m) ∧
    (conf.SoftDeleteFlagColumn = "" → softDeleteStep db conf col m = m) ∧
    (conf.SoftDeleteFlagColumn ≠ "" → col.Name = conf.SoftDeleteFlagColumn →
      (softDeleteStep db conf col m).Type_ = "soft_delete.DeletedAt" ∧
      (softDeleteStep db conf col m).GORMTag.Get "softDelete" = ["flag"] ∧
      (softDeleteStep db conf col m).Name = m.Name ∧
      (softDeleteStep db conf col m).ColumnName = m.ColumnName ∧
      (softDeleteStep db conf col m).Relation = m.Relation ∧
      (conf.SoftDeleteTimeColumn = "" →
        (softDeleteStep db conf col m).GORMTag = m.GORMTag.Set "softDelete" "flag" ∧
        (softDeleteStep db conf col m).GORMTag.Get "DeletedAtField"
          = m.GORMTag.Get "DeletedAtField") ∧
      (conf.SoftDeleteTimeColumn ≠ "" →
        (softDeleteStep db conf col m).GORMTag
          = (m.GORMTag.Set "softDelete" "flag").Set "DeletedAtField"
              (schemaName db conf.SoftDeleteTimeColumn) ∧
        (softDeleteStep db conf col m).GORMTag.Get "DeletedAtField"
          = [schemaName db conf.SoftDeleteTimeColumn])) := by
  refine ⟨?_, ?_, ?_⟩
  · intro h
    unfold softDeleteStep
    split
    · rename_i hc
      simp only [Bool.and_eq_true, bne_iff_ne, ne_eq, beq_iff_eq] at hc
      exact absurd hc h
    · rfl
  · intro h
    simp [softDeleteStep, h]
  · intro hflag hname
    by_cases htime : conf.SoftDeleteTimeColumn = ""
    · have hstep : softDeleteStep db conf col m =
          { m with Type_ := "soft_delete.DeletedAt"
                   GORMTag := m.GORMTag.Set "softDelete" "flag" } := by
        simp [softDeleteStep, hflag, hname, htime]
      rw [hstep]
      refine ⟨rfl, GormTag_get_set_self _ _ _, rfl, rfl, rfl, ?_, ?_⟩
      · intro _
        exact ⟨rfl, GormTag_get_set_other _ _ _ _ (by decide)⟩
      · intro h; exact absurd htime h
    · rw [softDeleteStep_mixed db conf col m hflag htime hname]
      refine ⟨rfl, ?_, rfl, rfl, rfl, ?_, ?_⟩
      · simp only
        rw [GormTag_get_set_other _ _ _ _ (by decide), GormTag_get_set_self]
      · intro h; exact absurd h htime
      · intro _
        exact ⟨rfl, GormTag_get_set_self _ _ _⟩

/-- C15 at sample values: in mixed mode the column `id` is left alone and the column
`is_delete` gets the type and the `softDelete` tag. -/
theorem C15_soft_delete_policy_witness :
    softDeleteStep (some Sample.db) (Sample.conf [] [] []) (Sample.column "id") Sample.idField
      = Sample.idField ∧
    (softDeleteStep (some Sample.db) (Sample.conf [] [] []) (Sample.column "is_delete")
      Sample.idField).Type_ = "soft_delete.DeletedAt" ∧
    (softDeleteStep (some Sample.db) (Sample.conf [] [] []) (Sample.column "is_delete")
      Sample.idField).GORMTag.Get "DeletedAtField" = ["UpdateTime"] :=
  ⟨(C15_soft_delete_policy (some Sample.db) (Sample.conf [] [] []) (Sample.column "id")
      Sample.idField).1 (by decide),
   ((C15_soft_delete_policy (some Sample.db) (Sample.conf [] [] [])
      (Sample.column "is_delete") Sample.idField).2.2 (by decide) rfl).1,
   (((C15_soft_delete_policy (some Sample.db) (Sample.conf [] [] [])
      (Sample.column "is_delete") Sample.idField).2.2 (by decide) rfl).2.2.2.2.2.2
      (by decide)).2⟩

/-- C18 as stated fails: a filter that writes the type `text` through the pointer and
returns it does not return `nil`, and `filterField` then returns the field with the type
`text`, not the field it was given. -/
theorem C18_filter_keeps_counterexample :
    (∀ opt ∈ [Sample.keep, Sample.writeType "text"],
      (opt.Operator (some Sample.idField)).isSome = true) ∧
    (filterField (some Sample.idField) [Sample.keep, Sample.writeType "text"]).map
      (fun f => f.Type_) = some "text" ∧
    filterField (some Sample.idField) [Sample.keep, Sample.writeType "text"]
      ≠ some Sample.idField := by
  refine ⟨?_, by decide, ?_⟩
  · intro opt hopt
    simp only [List.mem_cons, List.mem_singleton, List.not_mem_nil, or_false] at hopt
    rcases hopt with rfl | rfl <;> rfl
  · intro h
    have h1 := congrArg (fun o : Option Field => o.map (fun f => f.Type_)) h
    revert h1
    decide

/-- C18, amended. The filter chain returns its own argument: when no option of the list
returns `nil` on the field as the options before it left it, `filterField(m, opts)` returns
the pointer `m`, holding the field as the writes of the options through the pointer left
it, whatever fields the options return; it is the field `m` unchanged when no option writes
through the pointer. -/
theorem C18_filter_keeps (m : Field) (opts : List FieldOption)
    (h : ∀ before opt after, opts = before ++ opt :: after →
      opt.Operator (some (writes before m)) ≠ none) :
    filterField (some m) opts = some (writes opts m) ∧
    (∀ opts' : List FieldOption, opts'.map (fun o => o.Write) = opts.map (fun o => o.Write) →
      filterField (some m) opts' ≠ none →
      filterField (some m) opts' = filterField (some m) opts) ∧
    ((∀ opt ∈ opts, ∀ f : Field, opt.Write f = f) → filterField (some m) opts = some m) := by
  have hne : filterField (some m) opts ≠ none := by
    intro hnone
    obtain ⟨before, opt, after, heq, hn⟩ := (filterField_eq_none_iff m opts).1 hnone
    exact h before opt after heq hn
  have h1 := filterField_eq_writes m opts hne
  refine ⟨h1, ?_, ?_⟩
  · intro opts' hw hne'
    have hwr : ∀ (a b : List FieldOption) (x : Field),
        a.map (fun o => o.Write) = b.map (fun o => o.Write) → writes a x = writes b x := by
      intro a
      induction a with
      | nil =>
        intro b x hab
        cases b with
        | nil => rfl
        | cons y b => simp at hab
      | cons o a ih =>
        intro b x hab
        cases b with
        | nil => simp at hab
        | cons y b =>
          simp only [List.map_cons, List.cons.injEq] at hab
          rw [writes_cons, writes_cons, hab.1]
          exact ih b _ hab.2
    rw [filterField_eq_writes m opts' hne', h1, hwr opts' opts m hw]
  · intro hw
    rw [h1, writes_eq_self opts m hw]

/-- C18, amended, at sample values: a filter that returns another field, a copy with the
type changed, and writes nothing, lets `filterField` return the field it was given. -/
theorem C18_filter_keeps_witness :
    (Sample.retype "text").Operator (some Sample.idField)
      = some { Sample.idField with Type_ := "text" } ∧
    filterField (some Sample.idField) [Sample.keep, Sample.retype "text"]
      = some Sample.idField :=
  ⟨rfl, (C18_filter_keeps Sample.idField [Sample.keep, Sample.retype "text"] (by
    intro before opt after heq
    have hopt : opt ∈ [Sample.keep, Sample.retype "text"] := by rw [heq]; simp
    have hw : writes before Sample.idField = Sample.idField := by
      apply writes_eq_self
      intro o ho f
      have ho' : o ∈ [Sample.keep, Sample.retype "text"] := by rw [heq]; simp [ho]
      simp only [List.mem_cons, List.mem_singleton, List.not_mem_nil, or_false] at ho'
      rcases ho' with rfl | rfl <;> rfl
    rw [hw]
    simp only [List.mem_cons, List.mem_singleton, List.not_mem_nil, or_false] at hopt
    rcases hopt with rfl | rfl
    · simp [Sample.keep]
    · simp [Sample.retype])).2.2 (by
    intro o ho f
    simp only [List.mem_cons, List.mem_singleton, List.not_mem_nil, or_false] at ho
    rcases ho with rfl | rfl <;> rfl)⟩

end generate

/-! ## Properties of `strings.TrimSpace` and of the bytes of a string -/

namespace strings

/-- What `dropWhile` leaves does not begin with a dropped character. -/
theorem head_dropWhile (p : Char → Bool) (l : List Char) :
    ∀ x ∈ (l.dropWhile p).head?, p x = false := by
  induction l with
  | nil => simp
  | cons c l ih =>
    by_cases h : p c = true
    · simpa [List.dropWhile, h] using ih
    · simp only [Bool.not_eq_true] at h
      simp [List.dropWhile, h]

/-- A text that does not begin with a dropped character is left whole by `dropWhile`. -/
theorem dropWhile_of_head (p : Char → Bool) (l : List Char)
    (h : ∀ x ∈ l.head?, p x = false) : l.dropWhile p = l := by
  cases l with
  | nil => rfl
  | cons c l =>
    have hc : p c = false := h c (by simp)
    simp [List.dropWhile, hc]

/-- What `dropWhile` leaves, when it leaves something, ends as the text ends. -/
theorem getLast_dropWhile (p : Char → Bool) (l : List Char) (h : l.dropWhile p ≠ []) :
    (l.dropWhile p).getLast? = l.getLast? := by
  obtain ⟨t, ht⟩ := List.dropWhile_suffix p (l := l)
  conv_rhs => rw [← ht]
  rw [List.getLast?_append_of_ne_nil _ h]

/-- The result of `TrimSpace` neither begins nor ends with white space. -/
theorem trimmed_TrimSpace (s : String) : Trimmed (TrimSpace s).data := by
  simp only [TrimSpace, Trimmed, List.head?_reverse, List.getLast?_reverse]
  constructor
  · intro x hx
    by_cases hne : ((s.data.dropWhile isSpace).reverse.dropWhile isSpace) = []
    · rw [hne] at hx; simp at hx
    · rw [getLast_dropWhile _ _ hne, List.getLast?_reverse] at hx
      exact head_dropWhile isSpace s.data x hx
  · exact head_dropWhile isSpace _

/-- A trimmed text is left as it is by `TrimSpace`. -/
theorem TrimSpace_of_trimmed (s : String) (h : Trimmed s.data) : TrimSpace s = s := by
  obtain ⟨h1, h2⟩ := h
  have e1 : s.data.dropWhile isSpace = s.data := dropWhile_of_head _ _ h1
  have e2 : s.data.reverse.dropWhile isSpace = s.data.reverse :=
    dropWhile_of_head _ _ (by simpa [List.head?_reverse] using h2)
  simp only [TrimSpace, e1, e2, List.reverse_reverse]

/-- `TrimSpace` applied twice is `TrimSpace`. -/
theorem TrimSpace_idem (s : String) : TrimSpace (TrimSpace s) = TrimSpace s :=
  TrimSpace_of_trimmed _ (trimmed_TrimSpace s)

/-- `TrimSpace` removes a run of white space at each end and nothing else. -/
theorem TrimSpace_spec (s : String) :
    ∃ a b : List Char, s.data = a ++ (TrimSpace s).data ++ b ∧
      a.all isSpace = true ∧ b.all isSpace = true := by
  refine ⟨s.data.takeWhile isSpace,
    ((s.data.dropWhile isSpace).reverse.takeWhile isSpace).reverse, ?_, ?_, ?_⟩
  · have h1 := List.takeWhile_append_dropWhile isSpace s.data
    have h2 := List.takeWhile_append_dropWhile isSpace (s.data.dropWhile isSpace).reverse
    have h3 := congrArg List.reverse h2
    simp only [List.reverse_append, List.reverse_reverse] at h3
    simp only [TrimSpace, List.append_assoc]
    rw [h3, h1]
  · rw [List.all_eq_true]
    intro x hx
    exact List.mem_takeWhile_imp hx
  · rw [List.all_eq_true]
    intro x hx
    exact List.mem_takeWhile_imp (List.mem_reverse.1 hx)

/-- A text of white space only is trimmed to the empty string. -/
theorem TrimSpace_of_space (s : String) (h : s.data.all isSpace = true) :
    TrimSpace s = "" := by
  have h1 : s.data.dropWhile isSpace = [] := by
    rw [List.dropWhile_eq_nil_iff]
    intro x hx
    exact List.all_eq_true.1 h x hx
  simp only [TrimSpace, h1]
  rfl

end strings

namespace generate

/-- A byte stream that ORs in a value with the top bit set is not the byte of the double
quote. -/
theorem or_ne_quote (x k : UInt8) (hk : k.toNat.testBit 7 = true) : (x ||| k).toNat ≠ 34 := by
  intro h
  have h1 : (x ||| k).toNat = x.toNat ||| k.toNat := by
    show (x.toBitVec ||| k.toBitVec).toNat = _
    rw [BitVec.toNat_or]
    rfl
  rw [h1] at h
  have h2 := congrArg (fun n => Nat.testBit n 7) h
  simp only [Nat.testBit_or, hk, Bool.or_true] at h2
  revert h2
  decide

/-- The character of code 34 is the double quote. -/
theorem char_eq_quote (c : Char) (h : c.toNat = 34) : c = '"' := by
  apply Char.ext
  apply UInt32.ext
  exact h

/-- The encoding of a character is not empty, and its first byte or its last byte is the
byte of the double quote only for the double quote. -/
theorem encode_quote (c : Char) :
    (String.utf8EncodeChar c).map UInt8.toNat ≠ [] ∧
    (((String.utf8EncodeChar c).map UInt8.toNat).headD 0 = 34 ↔ c = '"') ∧
    (((String.utf8EncodeChar c).map UInt8.toNat).getLastD 0 = 34 ↔ c = '"') := by
  by_cases hq : c = '"'
  · subst hq
    decide
  · have hne : c.toNat ≠ 34 := fun h => hq (char_eq_quote c h)
    simp only [String.utf8EncodeChar]
    split
    · rename_i h1
      have h1' : c.toNat ≤ 127 := by
        rw [UInt32.le_def, BitVec.le_def] at h1
        exact h1
      have : (c.val.toUInt8).toNat = c.toNat := by
        simp only [UInt32.toUInt8, Nat.toUInt8, UInt8.ofNat, UInt8.toNat, BitVec.toNat_ofNat,
          Char.toNat] at h1' ⊢
        omega
      simp [this, hne, hq]
    · split
      · simp only [List.map, List.headD, List.getLastD, List.getLast, hq, iff_false, ne_eq,
          not_false_eq_true, reduceCtorEq, true_and]
        exact ⟨or_ne_quote _ _ (by decide), or_ne_quote _ _ (by decide)⟩
      · split
        · simp only [List.map, List.headD, List.getLastD, List.getLast, hq, iff_false, ne_eq,
            not_false_eq_true, reduceCtorEq, true_and]
          exact ⟨or_ne_quote _ _ (by decide), or_ne_quote _ _ (by decide)⟩
        · simp only [List.map, List.headD, List.getLastD, List.getLast, hq, iff_false, ne_eq,
            not_false_eq_true, reduceCtorEq, true_and]
          exact ⟨or_ne_quote _ _ (by decide), or_ne_quote _ _ (by decide)⟩

/-- The bytes of a string: there is one exactly when the string is not empty, the first is
the byte of the double quote exactly when the first character is the double quote, and so
for the last. -/
theorem bytes_quote (s : String) :
    ((bytes s).length > 0 ↔ s ≠ "") ∧
    ((bytes s).headD 0 = 34 ↔ s.data.head? = some '"') ∧
    ((bytes s).getLastD 0 = 34 ↔ s.data.getLast? = some '"') := by
  obtain ⟨l⟩ := s
  have hb : ∀ l : List Char, bytes (String.mk l)
      = l.flatMap (fun c => (String.utf8EncodeChar c).map UInt8.toNat) := by
    intro l
    simp [bytes, List.map_flatMap]
  refine ⟨?_, ?_, ?_⟩
  · cases l with
    | nil => simp [hb]
    | cons c l =>
      have h1 := (encode_quote c).1
      have h2 : String.mk (c :: l) ≠ "" := by
        intro h
        have := congrArg String.data h
        simp at this
      simp only [hb, List.flatMap_cons, List.length_append, gt_iff_lt, ne_eq, h2,
        not_false_eq_true, iff_true]
      have := List.length_pos.2 h1
      omega
  · cases l with
    | nil => simp [hb]
    | cons c l =>
      obtain ⟨h1, h2, _⟩ := encode_quote c
      simp only [hb, List.flatMap_cons, List.head?_cons, Option.some.injEq]
      rw [← h2]
      cases he : (String.utf8EncodeChar c).map UInt8.toNat with
      | nil => exact absurd he h1
      | cons b bs => simp
  · rcases List.eq_nil_or_concat l with rfl | ⟨init, c, rfl⟩
    · simp [hb]
    · obtain ⟨h1, _, h3⟩ := encode_quote c
      simp only [hb, List.concat_eq_append, List.flatMap_append, List.flatMap_cons,
        List.flatMap_nil, List.append_nil, List.getLast?_append_of_ne_nil _ (List.cons_ne_nil c []),
        List.getLast?_singleton, Option.some.injEq]
      rw [← h3]
      cases he : (String.utf8EncodeChar c).map UInt8.toNat with
      | nil => exact absurd he h1
      | cons b bs =>
        rw [List.getLastD_eq_getLast?, List.getLastD_eq_getLast?,
          List.getLast?_append_of_ne_nil _ (List.cons_ne_nil b bs)]

end generate

/-! ## Soft-delete configuration, import paths and the idempotence of `Revise` -/

namespace gen

/-- The entry stored for a path, on characters: the trimmed path, wrapped in double quotes
when it is not empty and neither begins nor ends with a double quote. -/
theorem importPath_eq (path : String) :
    importPath path =
      if strings.TrimSpace path ≠ "" ∧ (strings.TrimSpace path).data.head? ≠ some '"' ∧
          (strings.TrimSpace path).data.getLast? ≠ some '"' then
        "\"" ++ strings.TrimSpace path ++ "\""
      else strings.TrimSpace path := by
  obtain ⟨h1, h2, h3⟩ := generate.bytes_quote (strings.TrimSpace path)
  have hq : ('"' : Char).toNat = 34 := rfl
  have hb : (decide ((generate.bytes (strings.TrimSpace path)).length > 0) &&
      (generate.bytes (strings.TrimSpace path)).headD 0 != 34 &&
      (generate.bytes (strings.TrimSpace path)).getLastD 0 != 34)
      = decide (strings.TrimSpace path ≠ "" ∧
          (strings.TrimSpace path).data.head? ≠ some '"' ∧
          (strings.TrimSpace path).data.getLast? ≠ some '"') := by
    rw [Bool.eq_iff_iff]
    simp only [Bool.and_eq_true, decide_eq_true_eq, bne_iff_ne, ne_eq, h1, h2, h3, and_assoc]
  simp only [importPath, hq, hb, decide_eq_true_eq]

/-- Storing a stored entry again stores the same entry. -/
theorem importPath_idem (path : String) : importPath (importPath path) = importPath path := by
  by_cases c : strings.TrimSpace path ≠ "" ∧ (strings.TrimSpace path).data.head? ≠ some '"' ∧
      (strings.TrimSpace path).data.getLast? ≠ some '"'
  · have e1 : importPath path = "\"" ++ strings.TrimSpace path ++ "\"" := by
      rw [importPath_eq, if_pos c]
    have hd : ("\"" ++ strings.TrimSpace path ++ "\"").data
        = '"' :: ((strings.TrimSpace path).data ++ ['"']) := by
      simp [String.data_append]
    have ht : strings.TrimSpace ("\"" ++ strings.TrimSpace path ++ "\"")
        = "\"" ++ strings.TrimSpace path ++ "\"" := by
      apply strings.TrimSpace_of_trimmed
      rw [hd]
      constructor
      · intro x hx
        simp only [List.head?_cons, Option.mem_def, Option.some.injEq] at hx
        subst hx
        decide
      · intro x hx
        rw [← List.cons_append, List.getLast?_append_of_ne_nil _ (List.cons_ne_nil '"' [])] at hx
        simp only [List.getLast?_singleton, Option.mem_def, Option.some.injEq] at hx
        subst hx
        decide
    rw [e1, importPath_eq, ht, if_neg]
    intro h
    apply h.2.1
    rw [hd]
    rfl
  · have e1 : importPath path = strings.TrimSpace path := by
      rw [importPath_eq, if_neg c]
    rw [e1, importPath_eq, strings.TrimSpace_idem, if_neg c]

/-- C16. Soft-delete configuration: `WithSoftDeleteFlag` and `WithSoftDeleteAt` store the
argument trimmed of the white space at both ends, so a name of white space only is stored as
the empty name; `CheckSoftDeletePlugin` appends the one entry `"gorm.io/plugin/soft_delete"`,
in double quotes, to the import paths when one of the two column names is not empty, and
leaves the configuration as it is when both are empty. -/
theorem C16_soft_delete_config (cfg : Config) :
    (∀ column : String,
      (cfg.WithSoftDeleteFlag column).SoftDeleteFlagColumn = strings.TrimSpace column ∧
      (cfg.WithSoftDeleteAt column).SoftDeleteTimeColumn = strings.TrimSpace column ∧
      (∃ a b : List Char, column.data = a ++ (strings.TrimSpace column).data ++ b ∧
        a.all strings.isSpace = true ∧ b.all strings.isSpace = true) ∧
      strings.Trimmed (strings.TrimSpace column).data ∧
      (column.data.all strings.isSpace = true →
        (cfg.WithSoftDeleteFlag column).SoftDeleteFlagColumn = "" ∧
        (cfg.WithSoftDeleteAt column).SoftDeleteTimeColumn = "")) ∧
    (cfg.SoftDeleteFlagColumn ≠ "" ∨ cfg.SoftDeleteTimeColumn ≠ "" →
      cfg.CheckSoftDeletePlugin.importPkgPaths
        = cfg.importPkgPaths ++ ["\"gorm.io/plugin/soft_delete\""]) ∧
    (cfg.SoftDeleteFlagColumn = "" → cfg.SoftDeleteTimeColumn = "" →
      cfg.CheckSoftDeletePlugin = cfg) ∧
    (cfg.CheckSoftDeletePlugin.importPkgPaths ≠ cfg.importPkgPaths ↔
      (cfg.SoftDeleteFlagColumn ≠ "" ∨ cfg.SoftDeleteTimeColumn ≠ "")) := by
  have happ : cfg.SoftDeleteFlagColumn ≠ "" ∨ cfg.SoftDeleteTimeColumn ≠ "" →
      cfg.CheckSoftDeletePlugin.importPkgPaths
        = cfg.importPkgPaths ++ ["\"gorm.io/plugin/soft_delete\""] := by
    intro h
    have hc : (cfg.SoftDeleteFlagColumn != "" || cfg.SoftDeleteTimeColumn != "") = true := by
      simpa using h
    have hi : importPath "gorm.io/plugin/soft_delete" = "\"gorm.io/plugin/soft_delete\"" := by
      decide
    simp only [Config.CheckSoftDeletePlugin, hc, if_true, Config.WithImportPkgPath, List.map,
      hi]
  have hkeep : cfg.SoftDeleteFlagColumn = "" → cfg.SoftDeleteTimeColumn = "" →
      cfg.CheckSoftDeletePlugin = cfg := by
    intro h1 h2
    simp [Config.CheckSoftDeletePlugin, h1, h2]
  refine ⟨?_, happ, hkeep, ?_⟩
  · intro column
    refine ⟨rfl, rfl, strings.TrimSpace_spec column, strings.trimmed_TrimSpace column, ?_⟩
    intro h
    exact ⟨strings.TrimSpace_of_space column h, strings.TrimSpace_of_space column h⟩
  · constructor
    · intro h
      by_contra hn
      simp only [not_or, not_not] at hn
      exact h (by rw [hkeep hn.1 hn.2])
    · intro h heq
      have := congrArg List.length (happ h ▸ heq)
      simp at this

/-- C16 at sample values: a flag column given as `  is_delete ` is stored as `is_delete`, a
blank name is stored empty, and the plugin path is then appended in quotes. -/
theorem C16_soft_delete_config_witness :
    ((Sample.config "" "" 0).WithSoftDeleteFlag "  is_delete ").SoftDeleteFlagColumn
      = "is_delete" ∧
    ((Sample.config "" "" 0).WithSoftDeleteAt " \t ").SoftDeleteTimeColumn = "" ∧
    (((Sample.config "" "" 0).WithSoftDeleteFlag "  is_delete ").CheckSoftDeletePlugin).importPkgPaths
      = ["\"gorm.io/plugin/soft_delete\""] ∧
    (Sample.config "" "" 0).CheckSoftDeletePlugin.importPkgPaths = [] := by
  refine ⟨by decide, ?_, ?_, ?_⟩
  · exact (((C16_soft_delete_config (Sample.config "" "" 0)).1 " \t ").2.2.2.2 (by decide)).2
  · exact (C16_soft_delete_config
      ((Sample.config "" "" 0).WithSoftDeleteFlag "  is_delete ")).2.1 (Or.inl (by decide))
  · rw [(C16_soft_delete_config (Sample.config "" "" 0)).2.2.1 rfl rfl]
    rfl

/-- C17. Import-path normalisation: the entry `WithImportPkgPath` stores for a path is the
trimmed path wrapped in double quotes when the trimmed path is not empty and neither begins
nor ends with a double quote, and the trimmed path otherwise; storing a stored entry again
stores the same string. -/
theorem C17_import_path :
    (∀ (cfg : Config) (paths : List String),
      (cfg.WithImportPkgPath paths).importPkgPaths
        = cfg.importPkgPaths ++ paths.map importPath) ∧
    (∀ path : String,
      importPath path =
        if strings.TrimSpace path ≠ "" ∧ (strings.TrimSpace path).data.head? ≠ some '"' ∧
            (strings.TrimSpace path).data.getLast? ≠ some '"' then
          "\"" ++ strings.TrimSpace path ++ "\""
        else strings.TrimSpace path) ∧
    (∀ path : String, importPath (importPath path) = importPath path) ∧
    importPath " gorm.io/gen " = "\"gorm.io/gen\"" ∧
    importPath "\"gorm.io/gen\"" = "\"gorm.io/gen\"" ∧
    importPath "\"gorm.io/gen" = "\"gorm.io/gen" ∧
    importPath "  " = "" :=
  ⟨fun _ _ => rfl, importPath_eq, importPath_idem, by decide, by decide, by decide, by decide⟩

/-- Lines 175 to 193 of `Revise` leave the model package path alone. -/
theorem reviseOutput_modelPkgPath (env : Env) (cfg : Config) :
    (cfg.reviseOutput env).1.ModelPkgPath = cfg.ModelPkgPath := by
  cases hr : (env.Abs cfg.OutPath).2 with
  | some err => simp [Config.reviseOutput, hr]
  | none =>
    cases hdb : cfg.db <;> by_cases hp : (env.Abs cfg.OutPath).1 = "" <;>
      by_cases hf : cfg.OutFile = "" <;>
      cases hc : strings.ContainsChar cfg.OutFile env.PathSeparator <;>
      simp [Config.reviseOutput, hr, hp, hf, hc, hdb]

/-- The default of the model package path, applied twice, is the default applied once. -/
theorem defaultModelPkgPath_idem (env : Env) (cfg cfg1 : Config)
    (h : cfg1.ModelPkgPath = (cfg.defaultModelPkgPath env).ModelPkgPath) :
    (cfg1.defaultModelPkgPath env).ModelPkgPath = cfg1.ModelPkgPath := by
  unfold Config.defaultModelPkgPath at h ⊢
  by_cases h1 : strings.TrimSpace cfg1.ModelPkgPath = ""
  · rw [if_pos h1]
    by_cases h0 : strings.TrimSpace cfg.ModelPkgPath = ""
    · rw [if_pos h0] at h
      exact h.symm
    · rw [if_neg h0] at h
      rw [h] at h1
      exact absurd h1 h0
  · rw [if_neg h1]

/-- C19. Revise is idempotent: when `filepath.Abs` resolves the output path to a non-empty
`A` without error, returns `A` unchanged when given `A`, and `filepath.Join` under `A`
yields a path that holds a path separator, a second call of `Revise` returns no error and
leaves `OutPath`, `OutFile`, `ModelPkgPath` and the query package name as the first call
left them. -/
theorem C19_revise_idempotent (env : Env) (cfg : Config) (A : String)
    (habs : env.Abs cfg.OutPath = (A, none)) (hA : A ≠ "")
    (hfix : env.Abs A = (A, none))
    (hjoin : ∀ x : String, env.PathSeparator ∈ (env.Join A x).data) :
    (cfg.Revise env).2 = none ∧
    (((cfg.Revise env).1).Revise env).2 = none ∧
    (((cfg.Revise env).1).Revise env).1.OutPath = (cfg.Revise env).1.OutPath ∧
    (((cfg.Revise env).1).Revise env).1.OutFile = (cfg.Revise env).1.OutFile ∧
    (((cfg.Revise env).1).Revise env).1.ModelPkgPath = (cfg.Revise env).1.ModelPkgPath ∧
    (((cfg.Revise env).1).Revise env).1.queryPkgName = (cfg.Revise env).1.queryPkgName := by
  obtain ⟨f1, f2, _, _⟩ := defaultModelPkgPath_frame env cfg
  obtain ⟨k1, k2, k3, k4⟩ := reviseOutput_ok env (cfg.defaultModelPkgPath env) A
    (by rw [f1]; exact habs) hA
  rw [f2] at k4
  have km : (cfg.Revise env).1.ModelPkgPath = (cfg.defaultModelPkgPath env).ModelPkgPath :=
    reviseOutput_modelPkgPath env _
  -- the first call leaves an output file that holds a separator
  have hsep : strings.ContainsChar (cfg.Revise env).1.OutFile env.PathSeparator = true := by
    have hj : ∀ x : String, strings.ContainsChar (env.Join A x) env.PathSeparator = true := by
      intro x
      simpa [strings.ContainsChar] using hjoin x
    show strings.ContainsChar ((cfg.defaultModelPkgPath env).reviseOutput env).1.OutFile
      env.PathSeparator = true
    rw [k4]
    by_cases hf : cfg.OutFile = ""
    · rw [if_pos hf]; exact hj _
    · rw [if_neg hf]
      by_cases hc : strings.ContainsChar cfg.OutFile env.PathSeparator = false
      · rw [if_pos hc]; exact hj _
      · rw [if_neg hc]
        simpa using hc
  have hne : (cfg.Revise env).1.OutFile ≠ "" := by
    intro h
    rw [h] at hsep
    simp [strings.ContainsChar] at hsep
  obtain ⟨g1, g2, _, _⟩ := defaultModelPkgPath_frame env (cfg.Revise env).1
  have hp : (cfg.Revise env).1.OutPath = A := k2
  obtain ⟨r1, r2, r3, r4⟩ := reviseOutput_ok env ((cfg.Revise env).1.defaultModelPkgPath env) A
    (by rw [g1, hp]; exact hfix) hA
  rw [g2, if_neg hne, if_neg (by simp [hsep])] at r4
  refine ⟨k1, r1, ?_, r4, ?_, ?_⟩
  · exact r2.trans hp.symm
  · have h1 : (((cfg.Revise env).1).Revise env).1.ModelPkgPath
        = ((cfg.Revise env).1.defaultModelPkgPath env).ModelPkgPath :=
      reviseOutput_modelPkgPath env _
    rw [h1]
    exact defaultModelPkgPath_idem env cfg _ km
  · exact r3.trans k3.symm

/-- C19 at sample values: `Revise` on `OutPath` `./out` under `/work`, called twice, gives
the output file `/work/out/gen.go` both times. -/
theorem C19_revise_idempotent_witness :
    (((Sample.config "./out" "" 0).Revise Sample.env).1.Revise Sample.env).1.OutFile
      = "/work/out/gen.go" ∧
    ((Sample.config "./out" "" 0).Revise Sample.env).1.OutFile = "/work/out/gen.go" := by
  have h := C19_revise_idempotent Sample.env (Sample.config "./out" "" 0) "/work/out"
    (by decide) (by decide) (by decide) (by
      intro x
      show '/' ∈ ("/work/out" ++ "/" ++ x).data
      simp [String.data_append])
  have h2 : ((Sample.config "./out" "" 0).Revise Sample.env).1.OutFile = "/work/out/gen.go" := by
    decide
  exact ⟨h.2.2.2.1.trans h2, h2⟩

end gen
